import Mathlib

/-!
Shallow embedding of the PinchPost service (a social-posting API for automated
agents) and verification of its specification claims.

The embedding translates the route handlers of `src/routes/search.ts` (pinch
creation/deletion and the claw/repinch toggles), `src/routes/agents.ts`
(registration and follow/unfollow), `src/routes/feed.ts` (trending hashtags),
`src/utils/hashtags.ts` (hashtag extraction) and the relational schema of
`src/db.ts` into pure Lean functions over an explicit database state.  SQL
statements become list operations; the schema's `ON DELETE CASCADE` /
`ON DELETE SET NULL` actions are applied explicitly where a row is deleted.
-/

/-- Agent row of the `agents` table (`db.ts`): karma is an SQL INTEGER
(default 0), `claimed` the verification flag (default false). -/
structure Agent where
  id : Nat
  name : String
  description : String
  api_key : String
  verification_code : String
  claimed : Bool
  karma : Int
deriving DecidableEq, Repr

/-- Pinch (post) row of the `pinches` table: denormalized counters are SQL
INTEGERs, `reply_to`/`quote_of` are nullable references. -/
structure Pinch where
  id : Nat
  author_id : Nat
  content : String
  reply_to : Option Nat
  quote_of : Option Nat
  claws_count : Int
  repinch_count : Int
  reply_count : Int
  created_at : Int
deriving DecidableEq, Repr

/-- Hashtag row of the `hashtags` table with its running `pinch_count`. -/
structure Hashtag where
  id : Nat
  tag : String
  pinch_count : Int
deriving DecidableEq, Repr

/-- Whole database state.  `follows`, `claws`, `repinches` are the relation
tables keyed by their primary-key pairs; `pinch_hashtags` links pinches to
hashtags; `rateEvents` are the recorded rate-limit events
(agent id, action, timestamp).  The `next*` counters model the SERIAL
primary-key generators. -/
structure DB where
  agents : List Agent
  pinches : List Pinch
  follows : List (Nat × Nat)
  claws : List (Nat × Nat)
  repinches : List (Nat × Nat)
  hashtags : List Hashtag
  pinch_hashtags : List (Nat × Nat)
  rateEvents : List (Nat × String × Int)
  nextAgentId : Nat
  nextPinchId : Nat
  nextHashtagId : Nat
deriving DecidableEq, Repr

/-- The empty database produced by `initDB` (all tables empty, SERIAL
counters at 1). -/
def initialDB : DB :=
  { agents := [], pinches := [], follows := [], claws := [], repinches := []
    hashtags := [], pinch_hashtags := [], rateEvents := []
    nextAgentId := 1, nextPinchId := 1, nextHashtagId := 1 }

/-- UPDATE pinches SET ... WHERE id = `id`, as a row map. -/
def updatePinchRow (db : DB) (id : Nat) (f : Pinch → Pinch) : DB :=
  { db with pinches := db.pinches.map (fun p => if p.id = id then f p else p) }

/-- UPDATE agents SET ... WHERE id = `id`, as a row map. -/
def updateAgentRow (db : DB) (id : Nat) (f : Agent → Agent) : DB :=
  { db with agents := db.agents.map (fun a => if a.id = id then f a else a) }

/-- JS `String.prototype.toLowerCase` on one character (the source only
lowercases ASCII hashtag/name characters, where this is exact). -/
def charToLower (c : Char) : Char :=
  if ('A' ≤ c) && (c ≤ 'Z') then Char.ofNat (c.toNat + 32) else c

/-- JS `String.prototype.toLowerCase`. -/
def jsToLower (s : String) : String :=
  String.mk (s.data.map charToLower)

/-- Whitespace stripped by JS `String.prototype.trim`. -/
def isJsWhitespace (c : Char) : Bool :=
  (c = ' ') || (c = '\t') || (c = '\n') || (c = '\r')

/-- JS `String.prototype.trim`: strip whitespace from both ends. -/
def jsTrim (s : String) : String :=
  String.mk
    (((s.data.dropWhile isJsWhitespace).reverse.dropWhile
      isJsWhitespace).reverse)

/-- Character class of the hashtag regex `[a-zA-Z0-9_]` in
`src/utils/hashtags.ts`. -/
def isTagChar (c : Char) : Bool :=
  (('a' ≤ c) && (c ≤ 'z')) || (('A' ≤ c) && (c ≤ 'Z')) ||
    (('0' ≤ c) && (c ≤ '9')) || (c = '_')

/-- Global regex match `content.match(/#([a-zA-Z0-9_]+)/g)`: scan left to
right; at each `#` take the maximal run of tag characters; a `#` followed by
no tag character is not a match.  The fuel argument (instantiated with the
length of the list) only makes the recursion structural. -/
def scanTagsAux : Nat → List Char → List String
  | 0, _ => []
  | _ + 1, [] => []
  | fuel + 1, c :: rest =>
    if c = '#' then
      let word := rest.takeWhile isTagChar
      if word.isEmpty then scanTagsAux fuel rest
      else String.mk word :: scanTagsAux fuel (rest.drop word.length)
    else scanTagsAux fuel rest

/-- All raw hashtag matches of `content`, in order, without the leading `#`. -/
def scanTags (content : String) : List String :=
  scanTagsAux content.data.length content.data

/-- Deduplication keeping the first occurrence, as a JS `Set` built by
insertion does. -/
def dedupFirst : List String → List String := go []
where
  go (seen : List String) : List String → List String
    | [] => []
    | x :: xs => if x ∈ seen then go seen xs else x :: go (x :: seen) xs

/-- `extractHashtags` of `src/utils/hashtags.ts`: match `#word` patterns,
lowercase them, and deduplicate (Set insertion order). -/
def extractHashtags (content : String) : List String :=
  dedupFirst ((scanTags content).map jsToLower)

/-- Modelled from the spec: the rate-limit policies enforced by the missing
`src/middleware/rateLimit.ts` (documented in `skill.md` and §3 of the spec):
posting max 1 per 5 minutes, liking (claw) max 30 per hour, following max 50
per day; actions without a policy are always allowed.  The pair is
(max events, window in seconds). -/
def rateLimitPolicy : String → Option (Nat × Int)
  | "pinch" => some (1, 300)
  | "claw" => some (30, 3600)
  | "follow" => some (50, 86400)
  | _ => none

/-- Modelled from the spec: `checkRateLimit` of the missing
`src/middleware/rateLimit.ts` (§4.2): count the recorded events of this
(agent, action) with timestamp strictly inside the trailing window; allow
iff the count is below the policy maximum.  It records nothing. -/
def checkRateLimit (db : DB) (agentId : Nat) (action : String) (now : Int) :
    Bool :=
  match rateLimitPolicy action with
  | none => true
  | some (mx, window) =>
    (db.rateEvents.countP (fun e =>
      e.1 == agentId && e.2.1 == action && decide (now - window < e.2.2))) < mx

/-- Modelled from the spec: `recordRateLimit` of the missing
`src/middleware/rateLimit.ts` (§4.2): record one timestamped event for the
(agent, action), called by the routes only after the guarded action
succeeded. -/
def recordRateLimit (db : DB) (agentId : Nat) (action : String) (now : Int) :
    DB :=
  { db with rateEvents := (agentId, action, now) :: db.rateEvents }

/-- One iteration of the loop in `processHashtags` (`src/routes/search.ts`):
upsert the hashtag (`ON CONFLICT (tag) DO UPDATE SET pinch_count =
pinch_count + 1`) and insert the pinch↔hashtag link
(`ON CONFLICT DO NOTHING`). -/
def processTag (db : DB) (pinchId : Nat) (tag : String) : DB :=
  match db.hashtags.find? (fun h => h.tag == tag) with
  | some h =>
    let db1 := { db with hashtags := db.hashtags.map (fun h2 =>
      if h2.tag = tag then { h2 with pinch_count := h2.pinch_count + 1 }
      else h2) }
    if (pinchId, h.id) ∈ db1.pinch_hashtags then db1
    else { db1 with pinch_hashtags := db1.pinch_hashtags ++ [(pinchId, h.id)] }
  | none =>
    let h : Hashtag := { id := db.nextHashtagId, tag := tag, pinch_count := 1 }
    let db1 := { db with hashtags := db.hashtags ++ [h]
                         nextHashtagId := db.nextHashtagId + 1 }
    if (pinchId, h.id) ∈ db1.pinch_hashtags then db1
    else { db1 with pinch_hashtags := db1.pinch_hashtags ++ [(pinchId, h.id)] }

/-- `processHashtags` of `src/routes/search.ts`: process every extracted tag
in order. -/
def processHashtags (db : DB) (pinchId : Nat) (content : String) : DB :=
  (extractHashtags content).foldl (fun d tag => processTag d pinchId tag) db

/-- Outcome of POST /pinches. -/
inductive CreateResult where
  | contentEmpty
  | contentTooLong
  | rateLimited
  | parentNotFound
  | quotedNotFound
  | ok (id : Nat)
deriving DecidableEq, Repr

/-- Whether a create outcome is the success case. -/
def CreateResult.isOk : CreateResult → Bool
  | .ok _ => true
  | _ => false

/-- POST /pinches (`src/routes/search.ts`): trim and validate the content,
consult the rate limiter, validate `reply_to` and `quote_of`, then insert the
pinch, bump the parent's `reply_count`, process hashtags, grant the author +1
karma and record the rate-limit event — in exactly the source's order. -/
def createPinch (db : DB) (agentId : Nat) (rawContent : String)
    (replyTo quoteOf : Option Nat) (now : Int) : CreateResult × DB :=
  let content := jsTrim rawContent
  if content.length = 0 then (.contentEmpty, db)
  else if 280 < content.length then (.contentTooLong, db)
  else if ¬ checkRateLimit db agentId "pinch" now then (.rateLimited, db)
  else if replyTo.any (fun r =>
      (db.pinches.find? (fun p => p.id == r)).isNone) then
    (.parentNotFound, db)
  else if quoteOf.any (fun q =>
      (db.pinches.find? (fun p => p.id == q)).isNone) then
    (.quotedNotFound, db)
  else
    let newId := db.nextPinchId
    let pinch : Pinch :=
      { id := newId, author_id := agentId, content := content
        reply_to := replyTo, quote_of := quoteOf
        claws_count := 0, repinch_count := 0, reply_count := 0
        created_at := now }
    let db1 := { db with pinches := pinch :: db.pinches
                         nextPinchId := newId + 1 }
    let db2 := match replyTo with
      | some r => updatePinchRow db1 r
          (fun p => { p with reply_count := p.reply_count + 1 })
      | none => db1
    let db3 := processHashtags db2 newId content
    let db4 := updateAgentRow db3 agentId
      (fun a => { a with karma := a.karma + 1 })
    let db5 := recordRateLimit db4 agentId "pinch" now
    (.ok newId, db5)

/-- Outcome of DELETE /pinches/:id. -/
inductive DeleteResult where
  | notFound
  | notOwner
  | ok
deriving DecidableEq, Repr

/-- DELETE /pinches/:id (`src/routes/search.ts`): only the author may delete;
decrement the parent's `reply_count` (floored at 0), decrement each linked
hashtag's `pinch_count` (floored at 0), then delete the row.  The schema's
referential actions fire on the delete: dependent `claws`, `repinches` and
`pinch_hashtags` rows are cascade-deleted, and `reply_to`/`quote_of`
references of surviving pinches are set to NULL. -/
def deletePinch (db : DB) (agentId : Nat) (id : Nat) : DeleteResult × DB :=
  match db.pinches.find? (fun p => p.id == id) with
  | none => (.notFound, db)
  | some pinch =>
    if pinch.author_id ≠ agentId then (.notOwner, db)
    else
      let db1 := match pinch.reply_to with
        | some r => updatePinchRow db r
            (fun p => { p with reply_count := max (p.reply_count - 1) 0 })
        | none => db
      let linked := db1.pinch_hashtags.filter (fun ph => ph.1 == id)
      let db2 := linked.foldl (fun d ph =>
        { d with hashtags := d.hashtags.map (fun h =>
            if h.id = ph.2 then
              { h with pinch_count := max (h.pinch_count - 1) 0 }
            else h) }) db1
      let db3 := { db2 with
        pinches := (db2.pinches.filter (fun p => p.id ≠ id)).map (fun p =>
          { p with
            reply_to := if p.reply_to = some id then none else p.reply_to
            quote_of := if p.quote_of = some id then none else p.quote_of })
        claws := db2.claws.filter (fun cl => cl.2 ≠ id)
        repinches := db2.repinches.filter (fun rp => rp.2 ≠ id)
        pinch_hashtags := db2.pinch_hashtags.filter (fun ph => ph.1 ≠ id) }
      (.ok, db3)

/-- Outcome of the claw/repinch toggles. -/
inductive ToggleResult where
  | notFound
  | rateLimited
  | ok (engaged : Bool)
deriving DecidableEq, Repr

/-- POST /pinches/:id/claw (`src/routes/search.ts`): if the (agent, pinch)
claw row exists, remove it, decrement `claws_count` (floored at 0) and, for a
foreign author, decrement the author's karma (floored at 0) — without
consulting the rate limiter.  Otherwise consult the rate limiter, insert the
row, increment `claws_count`, record the event, and grant the author +1 karma
unless self-claw. -/
def toggleClaw (db : DB) (agentId : Nat) (id : Nat) (now : Int) :
    ToggleResult × DB :=
  match db.pinches.find? (fun p => p.id == id) with
  | none => (.notFound, db)
  | some pinch =>
    if (agentId, id) ∈ db.claws then
      let db1 := { db with claws := db.claws.filter (fun cl =>
        !(cl.1 == agentId && cl.2 == id)) }
      let db2 := updatePinchRow db1 id
        (fun p => { p with claws_count := max (p.claws_count - 1) 0 })
      let db3 := if pinch.author_id ≠ agentId then
          updateAgentRow db2 pinch.author_id
            (fun a => { a with karma := max (a.karma - 1) 0 })
        else db2
      (.ok false, db3)
    else if ¬ checkRateLimit db agentId "claw" now then (.rateLimited, db)
    else
      let db1 := { db with claws := (agentId, id) :: db.claws }
      let db2 := updatePinchRow db1 id
        (fun p => { p with claws_count := p.claws_count + 1 })
      let db3 := recordRateLimit db2 agentId "claw" now
      let db4 := if pinch.author_id ≠ agentId then
          updateAgentRow db3 pinch.author_id
            (fun a => { a with karma := a.karma + 1 })
        else db3
      (.ok true, db4)

/-- POST /pinches/:id/repinch (`src/routes/search.ts`): same toggle shape as
the claw, but never rate-limited, +2 karma to a foreign author on creation,
and the removal branch touches only the relation row and `repinch_count` —
it never touches karma. -/
def toggleRepinch (db : DB) (agentId : Nat) (id : Nat) : ToggleResult × DB :=
  match db.pinches.find? (fun p => p.id == id) with
  | none => (.notFound, db)
  | some pinch =>
    if (agentId, id) ∈ db.repinches then
      let db1 := { db with repinches := db.repinches.filter (fun rp =>
        !(rp.1 == agentId && rp.2 == id)) }
      let db2 := updatePinchRow db1 id
        (fun p => { p with repinch_count := max (p.repinch_count - 1) 0 })
      (.ok false, db2)
    else
      let db1 := { db with repinches := (agentId, id) :: db.repinches }
      let db2 := updatePinchRow db1 id
        (fun p => { p with repinch_count := p.repinch_count + 1 })
      let db3 := if pinch.author_id ≠ agentId then
          updateAgentRow db2 pinch.author_id
            (fun a => { a with karma := a.karma + 2 })
        else db2
      (.ok true, db3)

/-- Name normalization of POST /agents/register (`src/routes/agents.ts`):
trim, lowercase, strip every character outside `[a-z0-9_-]`. -/
def normalizeName (s : String) : String :=
  String.mk ((jsToLower (jsTrim s)).data.filter (fun ch =>
    (('a' ≤ ch) && (ch ≤ 'z')) || (('0' ≤ ch) && (ch ≤ '9')) ||
      (ch = '_') || (ch = '-')))

/-- Outcome of POST /agents/register. -/
inductive RegisterResult where
  | invalidName
  | nameTaken
  | ok (id : Nat)
deriving DecidableEq, Repr

/-- POST /agents/register (`src/routes/agents.ts`): normalize the name,
enforce the 2–32 length, reject taken names, then insert the agent row with
the generated API key and verification code (passed in here — they are
random tokens in the source) and the schema defaults `claimed = false`,
`karma = 0`. -/
def register (db : DB) (rawName desc apiKey vcode : String) :
    RegisterResult × DB :=
  let name := normalizeName rawName
  if name.length < 2 || 32 < name.length then (.invalidName, db)
  else if (db.agents.find? (fun a => a.name == name)).isSome then
    (.nameTaken, db)
  else
    let a : Agent := { id := db.nextAgentId, name := name, description := desc
                       api_key := apiKey, verification_code := vcode
                       claimed := false, karma := 0 }
    (.ok a.id, { db with agents := db.agents ++ [a]
                         nextAgentId := db.nextAgentId + 1 })

/-- `requireAuth` of `src/middleware/auth.ts`: resolve the agent row by API
key; nothing else is checked. -/
def authenticate (db : DB) (apiKey : String) : Option Agent :=
  db.agents.find? (fun a => a.api_key == apiKey)

/-- Outcome of POST /agents/:name/follow. -/
inductive FollowResult where
  | rateLimited
  | notFound
  | selfFollow
  | ok
deriving DecidableEq, Repr

/-- POST /agents/:name/follow (`src/routes/agents.ts`): consult the rate
limiter first, then resolve the target, reject self-follow, insert the edge
with `ON CONFLICT DO NOTHING`, and record the rate-limit event. -/
def followAgent (db : DB) (agentId : Nat) (targetName : String) (now : Int) :
    FollowResult × DB :=
  if ¬ checkRateLimit db agentId "follow" now then (.rateLimited, db)
  else
    match db.agents.find? (fun a => a.name == targetName) with
    | none => (.notFound, db)
    | some target =>
      if target.id = agentId then (.selfFollow, db)
      else
        let db1 := if (agentId, target.id) ∈ db.follows then db
          else { db with follows := db.follows ++ [(agentId, target.id)] }
        (.ok, recordRateLimit db1 agentId "follow" now)

/-- DELETE /agents/:name/follow (`src/routes/agents.ts`): resolve the target
and delete the edge; not rate-limited. -/
def unfollowAgent (db : DB) (agentId : Nat) (targetName : String) :
    FollowResult × DB :=
  match db.agents.find? (fun a => a.name == targetName) with
  | none => (.notFound, db)
  | some target =>
    (.ok, { db with follows := db.follows.filter (fun f =>
      !(f.1 == agentId && f.2 == target.id)) })

/-- Whether a pinch row with this id exists and was created inside the
trailing 24-hour window — the join condition
`t.id = ph.pinch_id AND t.created_at > NOW() - INTERVAL '24 hours'` of the
trending query (`src/routes/feed.ts`). -/
def pinchInWindow (db : DB) (now : Int) (pid : Nat) : Bool :=
  (db.pinches.find? (fun p => p.id == pid)).any
    (fun p => decide (now - 86400 < p.created_at))

/-- Per-hashtag `COUNT(ph.pinch_id)` of the trending query: the number of
link rows of this hashtag whose pinch exists and lies in the window. -/
def recentCount (db : DB) (now : Int) (hid : Nat) : Nat :=
  db.pinch_hashtags.countP (fun ph => ph.2 == hid && pinchInWindow db now ph.1)

/-- The ORDER BY of the trending query on rows
(tag, recent_count, total_count): `recent_count DESC, pinch_count DESC`. -/
def trendingOrder (a b : String × Nat × Int) : Bool :=
  decide (b.2.1 < a.2.1 ∨ (a.2.1 = b.2.1 ∧ b.2.2 ≤ a.2.2))

/-- GET /trending (`src/routes/feed.ts`): for each hashtag with at least one
linked pinch in the 24-hour window (the inner joins drop the others), emit
(tag, recent_count, all-time pinch_count), sort by recent count descending
with all-time count as tie-break, and take the limit. -/
def trending (db : DB) (now : Int) (limit : Nat) :
    List (String × Nat × Int) :=
  let rows := db.hashtags.filterMap (fun h =>
    let rc := recentCount db now h.id
    if rc = 0 then none else some (h.tag, rc, h.pinch_count))
  (rows.mergeSort trendingOrder).take limit

/-! ### Generic list helpers -/

/-- In a list whose keys are distinct, `find?` by the key of a member
returns exactly that member. -/
theorem find?_key_eq {α β : Type} [DecidableEq β] (key : α → β)
    {l : List α} (hN : (l.map key).Nodup) {x : α} (hx : x ∈ l) {k : β}
    (hk : key x = k) : l.find? (fun y => key y == k) = some x := by
  induction l with
  | nil => cases hx
  | cons a tl ih =>
    rcases List.mem_cons.mp hx with rfl | hx'
    · simp [List.find?_cons, hk]
    · have hne : key a ≠ k := by
        intro h
        have : key x ∈ tl.map key := List.mem_map_of_mem key hx'
        rw [hk, ← h] at this
        exact (List.nodup_cons.mp hN).1 this
      rw [List.find?_cons_of_neg _ (by simpa using hne)]
      exact ih (List.nodup_cons.mp hN).2 hx'

/-- Counting rows after the DELETE of one relation row: with unique rows,
the filter removes exactly the deleted pair from the count. -/
theorem countP_delete_pair {l : List (Nat × Nat)} (hN : l.Nodup)
    {a b : Nat} (h : (a, b) ∈ l) (p : Nat × Nat → Bool) :
    l.countP p =
      (l.filter (fun c => !(c.1 == a && c.2 == b))).countP p +
        (if p (a, b) then 1 else 0) := by
  induction l with
  | nil => cases h
  | cons c tl ih =>
    by_cases hc : c = (a, b)
    · subst hc
      have hnotin : (a, b) ∉ tl := (List.nodup_cons.mp hN).1
      have hfl : tl.filter (fun c => !(c.1 == a && c.2 == b)) = tl := by
        apply List.filter_eq_self.mpr
        intro x hx
        rcases x with ⟨x1, x2⟩
        simp only [Bool.not_eq_eq_eq_not, Bool.not_true, Bool.and_eq_false_imp]
        intro h1
        rw [beq_iff_eq] at h1
        rw [beq_eq_false_iff_ne]
        intro h2
        exact hnotin (by rw [← h1, ← h2]; exact hx)
      simp only [List.filter_cons, beq_self_eq_true, Bool.and_self,
        Bool.not_true, List.countP_cons, hfl]
      by_cases hp : p (a, b) = true <;> simp [hp]
    · have hmem : (a, b) ∈ tl := by
        rcases List.mem_cons.mp h with h' | h'
        · exact absurd h'.symm hc
        · exact h'
      have hpc : (fun c => !(c.1 == a && c.2 == b)) c = true := by
        rcases c with ⟨c1, c2⟩
        simp only [Bool.not_eq_eq_eq_not, Bool.not_true, Bool.and_eq_false_imp,
          beq_iff_eq]
        intro h1
        rw [beq_eq_false_iff_ne]
        intro h2
        exact absurd (by rw [h1, h2]) hc
      rw [List.countP_cons, List.filter_cons, if_pos hpc, List.countP_cons,
        ih (List.nodup_cons.mp hN).2 hmem]
      by_cases hp : p (a, b) = true <;> by_cases hq : p c = true <;>
        simp [hp, hq]

/-- Mapping a row update over the pinches table does not change the
multiset of ids when the update preserves ids. -/
theorem map_update_pinch_ids (l : List Pinch) (t : Nat) (f : Pinch → Pinch)
    (hid : ∀ p, (f p).id = p.id) :
    (l.map (fun p => if p.id = t then f p else p)).map Pinch.id =
      l.map Pinch.id := by
  rw [List.map_map]
  apply List.map_congr_left
  intro p _
  by_cases h : p.id = t <;> simp [h, hid]

/-- Counting rows by `reply_to` is unchanged by an update that preserves
`reply_to`. -/
theorem countP_reply_map_update (l : List Pinch) (t : Nat)
    (f : Pinch → Pinch) (hrt : ∀ p, (f p).reply_to = p.reply_to)
    (x : Option Nat) :
    (l.map (fun p => if p.id = t then f p else p)).countP
      (fun q => q.reply_to == x) = l.countP (fun q => q.reply_to == x) := by
  rw [List.countP_map]
  apply List.countP_congr
  intro p _
  by_cases h : p.id = t <;> simp [h, hrt]

/-! ### The reachable states and the global invariant -/

/-- States reachable from the freshly initialized database by any sequence
of API operations. -/
inductive Reachable : DB → Prop where
  | init : Reachable initialDB
  | register (db : DB) (rawName desc apiKey vcode : String) :
      Reachable db → Reachable (register db rawName desc apiKey vcode).2
  | create (db : DB) (aId : Nat) (rawContent : String)
      (rt qt : Option Nat) (now : Int) :
      Reachable db → Reachable (createPinch db aId rawContent rt qt now).2
  | delete (db : DB) (aId id : Nat) :
      Reachable db → Reachable (deletePinch db aId id).2
  | claw (db : DB) (aId id : Nat) (now : Int) :
      Reachable db → Reachable (toggleClaw db aId id now).2
  | repinch (db : DB) (aId id : Nat) :
      Reachable db → Reachable (toggleRepinch db aId id).2
  | follow (db : DB) (aId : Nat) (name : String) (now : Int) :
      Reachable db → Reachable (followAgent db aId name now).2
  | unfollow (db : DB) (aId : Nat) (name : String) :
      Reachable db → Reachable (unfollowAgent db aId name).2

/-- The global well-formedness invariant: primary keys are unique, SERIAL
ids are fresh, relation rows reference existing pinches, `reply_to` points
backwards to an existing pinch, every denormalized counter equals the count
of its underlying rows, and karma is non-negative. -/
structure WF (db : DB) : Prop where
  pinchIds : (db.pinches.map Pinch.id).Nodup
  pinchIdsLt : ∀ p ∈ db.pinches, p.id < db.nextPinchId
  clawsN : db.claws.Nodup
  repinchesN : db.repinches.Nodup
  clawsRef : ∀ c ∈ db.claws, ∃ p ∈ db.pinches, p.id = c.2
  repinchesRef : ∀ c ∈ db.repinches, ∃ p ∈ db.pinches, p.id = c.2
  replyRef : ∀ p ∈ db.pinches, ∀ r, p.reply_to = some r →
    r < p.id ∧ ∃ q ∈ db.pinches, q.id = r
  clawCnt : ∀ p ∈ db.pinches,
    p.claws_count = (db.claws.countP (fun c => c.2 == p.id) : Int)
  repinchCnt : ∀ p ∈ db.pinches,
    p.repinch_count = (db.repinches.countP (fun c => c.2 == p.id) : Int)
  replyCnt : ∀ p ∈ db.pinches,
    p.reply_count =
      (db.pinches.countP (fun q => q.reply_to == some p.id) : Int)
  karmaNN : ∀ a ∈ db.agents, 0 ≤ a.karma

theorem wf_initial : WF initialDB := by
  constructor <;> simp [initialDB]

/-- Lifting an existence-by-id fact through a pinch row update. -/
theorem exists_id_map_update {l : List Pinch} {t : Nat} {f : Pinch → Pinch}
    (hid : ∀ p, (f p).id = p.id) {k : Nat} (h : ∃ p ∈ l, p.id = k) :
    ∃ q ∈ l.map (fun p => if p.id = t then f p else p), q.id = k := by
  rcases h with ⟨p, hp, hk⟩
  refine ⟨if p.id = t then f p else p, List.mem_map_of_mem _ hp, ?_⟩
  split <;> simp [hid, hk]

theorem wf_register (db : DB) (h : WF db) (n d k v : String) :
    WF (register db n d k v).2 := by
  unfold register
  dsimp only
  split
  · exact h
  · split
    · exact h
    · refine ⟨h.pinchIds, h.pinchIdsLt, h.clawsN, h.repinchesN, h.clawsRef,
        h.repinchesRef, h.replyRef, h.clawCnt, h.repinchCnt, h.replyCnt, ?_⟩
      intro a ha
      rcases List.mem_append.mp ha with ha | ha
      · exact h.karmaNN a ha
      · rw [List.mem_singleton.mp ha]

theorem wf_follow (db : DB) (h : WF db) (aId : Nat) (name : String)
    (now : Int) : WF (followAgent db aId name now).2 := by
  unfold followAgent
  split
  · exact h
  · split
    · exact h
    · split
      · exact h
      · dsimp only [recordRateLimit]
        split <;>
          exact ⟨h.pinchIds, h.pinchIdsLt, h.clawsN, h.repinchesN, h.clawsRef,
            h.repinchesRef, h.replyRef, h.clawCnt, h.repinchCnt, h.replyCnt,
            h.karmaNN⟩

theorem wf_unfollow (db : DB) (h : WF db) (aId : Nat) (name : String) :
    WF (unfollowAgent db aId name).2 := by
  unfold unfollowAgent
  split
  · exact h
  · exact ⟨h.pinchIds, h.pinchIdsLt, h.clawsN, h.repinchesN, h.clawsRef,
      h.repinchesRef, h.replyRef, h.clawCnt, h.repinchCnt, h.replyCnt,
      h.karmaNN⟩

/-- Transfer `WF` along equality of the fields it mentions. -/
theorem WF.of_fields {d1 d2 : DB} (h : WF d1)
    (ha : d2.agents = d1.agents) (hp : d2.pinches = d1.pinches)
    (hc : d2.claws = d1.claws) (hr : d2.repinches = d1.repinches)
    (hn : d2.nextPinchId = d1.nextPinchId) : WF d2 := by
  refine ⟨?_, ?_, ?_, ?_, ?_, ?_, ?_, ?_, ?_, ?_, ?_⟩ <;>
    simp only [ha, hp, hc, hr, hn] <;>
    first
      | exact h.pinchIds
      | exact h.pinchIdsLt
      | exact h.clawsN
      | exact h.repinchesN
      | exact h.clawsRef
      | exact h.repinchesRef
      | exact h.replyRef
      | exact h.clawCnt
      | exact h.repinchCnt
      | exact h.replyCnt
      | exact h.karmaNN

/-- Core preservation lemma for the like/repost toggles: swapping the two
relation tables and applying a row update that only rewrites engagement
counters preserves the invariant, provided the new tables are duplicate-free,
reference existing pinches, and match the updated counters. -/
theorem wf_relation_update (db : DB) (h : WF db)
    (claws' repinches' : List (Nat × Nat)) (t : Nat) (f : Pinch → Pinch)
    (hid : ∀ p, (f p).id = p.id)
    (hrt : ∀ p, (f p).reply_to = p.reply_to)
    (hrc : ∀ p, (f p).reply_count = p.reply_count)
    (hclawsN : claws'.Nodup) (hrepN : repinches'.Nodup)
    (hclawsRef : ∀ c ∈ claws', ∃ p ∈ db.pinches, p.id = c.2)
    (hrepRef : ∀ c ∈ repinches', ∃ p ∈ db.pinches, p.id = c.2)
    (hclawCnt : ∀ p ∈ db.pinches,
      (if p.id = t then f p else p).claws_count =
        (claws'.countP (fun c => c.2 == p.id) : Int))
    (hrepCnt : ∀ p ∈ db.pinches,
      (if p.id = t then f p else p).repinch_count =
        (repinches'.countP (fun c => c.2 == p.id) : Int)) :
    WF { db with
      pinches := db.pinches.map (fun p => if p.id = t then f p else p)
      claws := claws', repinches := repinches' } := by
  have hidIf : ∀ p : Pinch, (if p.id = t then f p else p).id = p.id := by
    intro p; split <;> simp [hid]
  have hrtIf : ∀ p : Pinch,
      (if p.id = t then f p else p).reply_to = p.reply_to := by
    intro p; split <;> simp [hrt]
  refine ⟨?_, ?_, hclawsN, hrepN, ?_, ?_, ?_, ?_, ?_, ?_, ?_⟩
  · rw [map_update_pinch_ids _ t f hid]
    exact h.pinchIds
  · intro p' hp'
    rcases List.mem_map.mp hp' with ⟨p, hp, rfl⟩
    rw [hidIf p]
    exact h.pinchIdsLt p hp
  · intro c hc
    exact exists_id_map_update hid (h := hclawsRef c hc)
  · intro c hc
    exact exists_id_map_update hid (h := hrepRef c hc)
  · intro p' hp' r hr
    rcases List.mem_map.mp hp' with ⟨p, hp, rfl⟩
    rw [hrtIf p] at hr
    rw [hidIf p]
    obtain ⟨hlt, hq⟩ := h.replyRef p hp r hr
    exact ⟨hlt, exists_id_map_update hid (h := hq)⟩
  · intro p' hp'
    rcases List.mem_map.mp hp' with ⟨p, hp, rfl⟩
    rw [hidIf p]
    exact hclawCnt p hp
  · intro p' hp'
    rcases List.mem_map.mp hp' with ⟨p, hp, rfl⟩
    rw [hidIf p]
    exact hrepCnt p hp
  · intro p' hp'
    rcases List.mem_map.mp hp' with ⟨p, hp, rfl⟩
    rw [hidIf p, countP_reply_map_update _ t f hrt]
    have hrcIf : (if p.id = t then f p else p).reply_count = p.reply_count := by
      split <;> simp [hrc]
    rw [hrcIf]
    exact h.replyCnt p hp
  · exact h.karmaNN

/-- Preservation of `WF` by an agent-row update that keeps karma
non-negative. -/
theorem wf_updateAgentRow (db : DB) (h : WF db) (t : Nat) (f : Agent → Agent)
    (hf : ∀ a, 0 ≤ a.karma → 0 ≤ (f a).karma) :
    WF (updateAgentRow db t f) := by
  refine ⟨h.pinchIds, h.pinchIdsLt, h.clawsN, h.repinchesN, h.clawsRef,
    h.repinchesRef, h.replyRef, h.clawCnt, h.repinchCnt, h.replyCnt, ?_⟩
  intro a' ha'
  rcases List.mem_map.mp ha' with ⟨a, ha, rfl⟩
  by_cases hat : a.id = t
  · rw [if_pos hat]
    exact hf a (h.karmaNN a ha)
  · rw [if_neg hat]
    exact h.karmaNN a ha

theorem wf_toggleRepinch (db : DB) (h : WF db) (aId id : Nat) :
    WF (toggleRepinch db aId id).2 := by
  unfold toggleRepinch
  rcases hf : db.pinches.find? (fun p => p.id == id) with _ | pinch
  · simp only [hf]
    exact h
  · simp only [hf]
    have hmem : pinch ∈ db.pinches := List.mem_of_find?_eq_some hf
    have hpid : pinch.id = id := by simpa using List.find?_some hf
    by_cases hex : (aId, id) ∈ db.repinches
    · rw [if_pos hex]
      dsimp only [updatePinchRow]
      apply wf_relation_update db h db.claws _ id
        (fun p => { p with repinch_count := max (p.repinch_count - 1) 0 })
        (fun p => rfl) (fun p => rfl) (fun p => rfl) h.clawsN
        (h.repinchesN.filter _) h.clawsRef
        (fun c hc => h.repinchesRef c (List.mem_of_mem_filter hc))
        (fun p hp => by split <;> exact h.clawCnt p hp)
      intro p hp
      have hc0 := h.repinchCnt p hp
      have hdel := countP_delete_pair h.repinchesN hex (fun c => c.2 == p.id)
      by_cases hpt : p.id = id
      · rw [if_pos hpt]
        have hX : ((aId, id).2 == p.id) = true := by simp [hpt]
        rw [if_pos hX] at hdel
        dsimp only
        omega
      · rw [if_neg hpt]
        have hX : ¬ (((aId, id).2 == p.id) = true) := by
          simp only [beq_iff_eq]
          exact fun hh => hpt hh.symm
        rw [if_neg hX] at hdel
        omega
    · rw [if_neg hex]
      dsimp only [updatePinchRow, updateAgentRow]
      have hcore : WF { db with
          pinches := db.pinches.map (fun p => if p.id = id then
            { p with repinch_count := p.repinch_count + 1 } else p)
          claws := db.claws
          repinches := (aId, id) :: db.repinches } := by
        apply wf_relation_update db h db.claws ((aId, id) :: db.repinches) id
          (fun p => { p with repinch_count := p.repinch_count + 1 })
          (fun p => rfl) (fun p => rfl) (fun p => rfl) h.clawsN
          (List.nodup_cons.mpr ⟨hex, h.repinchesN⟩) h.clawsRef
          (fun c hc => by
            rcases List.mem_cons.mp hc with rfl | hc'
            · exact ⟨pinch, hmem, hpid⟩
            · exact h.repinchesRef c hc')
          (fun p hp => by split <;> exact h.clawCnt p hp)
        intro p hp
        have hc0 := h.repinchCnt p hp
        rw [List.countP_cons]
        by_cases hpt : p.id = id
        · rw [if_pos hpt]
          have hX : ((aId, id).2 == p.id) = true := by simp [hpt]
          rw [if_pos hX]
          dsimp only
          omega
        · rw [if_neg hpt]
          have hX : ¬ (((aId, id).2 == p.id) = true) := by
            simp only [beq_iff_eq]
            exact fun hh => hpt hh.symm
          rw [if_neg hX]
          omega
      split
      · exact wf_updateAgentRow _ (WF.of_fields hcore rfl rfl rfl rfl rfl)
          pinch.author_id _ (fun a h0 => by dsimp only; omega)
      · exact WF.of_fields hcore rfl rfl rfl rfl rfl

theorem wf_toggleClaw (db : DB) (h : WF db) (aId id : Nat) (now : Int) :
    WF (toggleClaw db aId id now).2 := by
  unfold toggleClaw
  rcases hf : db.pinches.find? (fun p => p.id == id) with _ | pinch
  · simp only [hf]
    exact h
  · simp only [hf]
    have hmem : pinch ∈ db.pinches := List.mem_of_find?_eq_some hf
    have hpid : pinch.id = id := by simpa using List.find?_some hf
    by_cases hex : (aId, id) ∈ db.claws
    · rw [if_pos hex]
      dsimp only [updatePinchRow, updateAgentRow]
      have hcore : WF { db with
          pinches := db.pinches.map (fun p => if p.id = id then
            { p with claws_count := max (p.claws_count - 1) 0 } else p)
          claws := db.claws.filter (fun cl => !(cl.1 == aId && cl.2 == id))
          repinches := db.repinches } := by
        apply wf_relation_update db h _ db.repinches id
          (fun p => { p with claws_count := max (p.claws_count - 1) 0 })
          (fun p => rfl) (fun p => rfl) (fun p => rfl) (h.clawsN.filter _)
          h.repinchesN
          (fun c hc => h.clawsRef c (List.mem_of_mem_filter hc))
          h.repinchesRef
          (fun p hp => by
            have hc0 := h.clawCnt p hp
            have hdel := countP_delete_pair h.clawsN hex
              (fun c => c.2 == p.id)
            by_cases hpt : p.id = id
            · rw [if_pos hpt]
              have hX : ((aId, id).2 == p.id) = true := by simp [hpt]
              rw [if_pos hX] at hdel
              dsimp only
              omega
            · rw [if_neg hpt]
              have hX : ¬ (((aId, id).2 == p.id) = true) := by
                simp only [beq_iff_eq]
                exact fun hh => hpt hh.symm
              rw [if_neg hX] at hdel
              omega)
          (fun p hp => by split <;> exact h.repinchCnt p hp)
      split
      · exact wf_updateAgentRow _ (WF.of_fields hcore rfl rfl rfl rfl rfl)
          pinch.author_id _ (fun a h0 => by dsimp only; omega)
      · exact WF.of_fields hcore rfl rfl rfl rfl rfl
    · rw [if_neg hex]
      split
      · exact h
      · dsimp only [updatePinchRow, updateAgentRow, recordRateLimit]
        have hcore : WF { db with
            pinches := db.pinches.map (fun p => if p.id = id then
              { p with claws_count := p.claws_count + 1 } else p)
            claws := (aId, id) :: db.claws
            repinches := db.repinches } := by
          apply wf_relation_update db h ((aId, id) :: db.claws)
            db.repinches id
            (fun p => { p with claws_count := p.claws_count + 1 })
            (fun p => rfl) (fun p => rfl) (fun p => rfl)
            (List.nodup_cons.mpr ⟨hex, h.clawsN⟩) h.repinchesN
            (fun c hc => by
              rcases List.mem_cons.mp hc with rfl | hc'
              · exact ⟨pinch, hmem, hpid⟩
              · exact h.clawsRef c hc')
            h.repinchesRef
            (fun p hp => by
              have hc0 := h.clawCnt p hp
              rw [List.countP_cons]
              by_cases hpt : p.id = id
              · rw [if_pos hpt]
                have hX : ((aId, id).2 == p.id) = true := by simp [hpt]
                rw [if_pos hX]
                dsimp only
                omega
              · rw [if_neg hpt]
                have hX : ¬ (((aId, id).2 == p.id) = true) := by
                  simp only [beq_iff_eq]
                  exact fun hh => hpt hh.symm
                rw [if_neg hX]
                omega)
            (fun p hp => by split <;> exact h.repinchCnt p hp)
        split
        · exact wf_updateAgentRow
            { db with
              pinches := db.pinches.map (fun p => if p.id = id then
                { p with claws_count := p.claws_count + 1 } else p)
              claws := (aId, id) :: db.claws
              rateEvents := (aId, "claw", now) :: db.rateEvents }
            (WF.of_fields hcore rfl rfl rfl rfl rfl)
            pinch.author_id _ (fun a h0 => by dsimp only; omega)
        · exact WF.of_fields hcore rfl rfl rfl rfl rfl

/-- No relation row can reference the not-yet-used SERIAL id. -/
theorem countP_fresh_claws (db : DB) (h : WF db)
    (href : ∀ c ∈ db.claws, ∃ p ∈ db.pinches, p.id = c.2) :
    db.claws.countP (fun c => c.2 == db.nextPinchId) = 0 := by
  rw [List.countP_eq_zero]
  intro c hc
  obtain ⟨p, hp, hpe⟩ := href c hc
  have := h.pinchIdsLt p hp
  simp only [beq_iff_eq]
  omega

/-- No existing pinch can reply to the not-yet-used SERIAL id. -/
theorem countP_fresh_reply (db : DB) (h : WF db) :
    db.pinches.countP (fun q => q.reply_to == some db.nextPinchId) = 0 := by
  rw [List.countP_eq_zero]
  intro q hq
  simp only [beq_iff_eq]
  intro hqe
  obtain ⟨hlt, -⟩ := h.replyRef q hq _ hqe
  have := h.pinchIdsLt q hq
  omega

theorem nextPinchId_not_mem (db : DB) (h : WF db) :
    db.nextPinchId ∉ db.pinches.map Pinch.id := by
  intro hmem
  rcases List.mem_map.mp hmem with ⟨p, hp, hpe⟩
  have := h.pinchIdsLt p hp
  omega

/-- Pushing a top-level pinch (no reply) preserves the invariant. -/
theorem wf_create_none (db : DB) (h : WF db) (aId : Nat) (content : String)
    (qt : Option Nat) (now : Int) :
    WF { db with
      pinches := { id := db.nextPinchId, author_id := aId, content := content
                   reply_to := none, quote_of := qt, claws_count := 0
                   repinch_count := 0, reply_count := 0, created_at := now } ::
        db.pinches
      nextPinchId := db.nextPinchId + 1 } := by
  have hclaw0 := countP_fresh_claws db h h.clawsRef
  have hrep0 : db.repinches.countP (fun c => c.2 == db.nextPinchId) = 0 := by
    rw [List.countP_eq_zero]
    intro c hc
    obtain ⟨p, hp, hpe⟩ := h.repinchesRef c hc
    have := h.pinchIdsLt p hp
    simp only [beq_iff_eq]
    omega
  have hreply0 := countP_fresh_reply db h
  refine ⟨?_, ?_, h.clawsN, h.repinchesN, ?_, ?_, ?_, ?_, ?_, ?_, h.karmaNN⟩
  · rw [List.map_cons]
    exact List.nodup_cons.mpr ⟨nextPinchId_not_mem db h, h.pinchIds⟩
  · intro p hp
    rcases List.mem_cons.mp hp with rfl | hp'
    · dsimp only
      omega
    · have := h.pinchIdsLt p hp'
      dsimp only
      omega
  · intro c hc
    obtain ⟨p, hp, he⟩ := h.clawsRef c hc
    exact ⟨p, List.mem_cons_of_mem _ hp, he⟩
  · intro c hc
    obtain ⟨p, hp, he⟩ := h.repinchesRef c hc
    exact ⟨p, List.mem_cons_of_mem _ hp, he⟩
  · intro p hp r hr
    rcases List.mem_cons.mp hp with rfl | hp'
    · exact Option.noConfusion hr
    · obtain ⟨hlt, q, hq, he⟩ := h.replyRef p hp' r hr
      exact ⟨hlt, q, List.mem_cons_of_mem _ hq, he⟩
  · intro p hp
    rcases List.mem_cons.mp hp with rfl | hp'
    · dsimp only
      rw [hclaw0]
      rfl
    · exact h.clawCnt p hp'
  · intro p hp
    rcases List.mem_cons.mp hp with rfl | hp'
    · dsimp only
      rw [hrep0]
      rfl
    · exact h.repinchCnt p hp'
  · intro p hp
    rcases List.mem_cons.mp hp with rfl | hp'
    · dsimp only
      rw [List.countP_cons]
      rw [if_neg (by simp)]
      rw [hreply0]
      rfl
    · rw [List.countP_cons, if_neg (by simp)]
      have := h.replyCnt p hp'
      omega

/-- Pushing a reply pinch and bumping its parent's `reply_count` in the same
unit of work preserves the invariant. -/
theorem wf_create_some (db : DB) (h : WF db) (aId : Nat) (content : String)
    (r : Nat) (qt : Option Nat) (now : Int)
    (hpar : ∃ parent ∈ db.pinches, parent.id = r) :
    WF { db with
      pinches := ({ id := db.nextPinchId, author_id := aId, content := content
                    reply_to := some r, quote_of := qt, claws_count := 0
                    repinch_count := 0, reply_count := 0
                    created_at := now } :: db.pinches).map
        (fun p => if p.id = r then
          { p with reply_count := p.reply_count + 1 } else p)
      nextPinchId := db.nextPinchId + 1 } := by
  have hclaw0 := countP_fresh_claws db h h.clawsRef
  have hrep0 : db.repinches.countP (fun c => c.2 == db.nextPinchId) = 0 := by
    rw [List.countP_eq_zero]
    intro c hc
    obtain ⟨p, hp, hpe⟩ := h.repinchesRef c hc
    have := h.pinchIdsLt p hp
    simp only [beq_iff_eq]
    omega
  have hreply0 := countP_fresh_reply db h
  have hrlt : r < db.nextPinchId := by
    obtain ⟨parent, hp, he⟩ := hpar
    have := h.pinchIdsLt parent hp
    omega
  have hidIf : ∀ p : Pinch,
      (if p.id = r then
        { p with reply_count := p.reply_count + 1 } else p).id = p.id := by
    intro p
    split <;> rfl
  have hrtIf : ∀ p : Pinch,
      (if p.id = r then
        { p with reply_count := p.reply_count + 1 } else p).reply_to =
        p.reply_to := by
    intro p
    split <;> rfl
  have hccIf : ∀ p : Pinch,
      (if p.id = r then
        { p with reply_count := p.reply_count + 1 } else p).claws_count =
        p.claws_count := by
    intro p
    split <;> rfl
  have hrcIf : ∀ p : Pinch,
      (if p.id = r then
        { p with reply_count := p.reply_count + 1 } else p).repinch_count =
        p.repinch_count := by
    intro p
    split <;> rfl
  refine ⟨?_, ?_, h.clawsN, h.repinchesN, ?_, ?_, ?_, ?_, ?_, ?_, h.karmaNN⟩
  all_goals dsimp only
  · rw [map_update_pinch_ids _ r
      (fun p => { p with reply_count := p.reply_count + 1 }) (fun p => rfl),
      List.map_cons]
    exact List.nodup_cons.mpr ⟨nextPinchId_not_mem db h, h.pinchIds⟩
  · intro p' hp'
    rcases List.mem_map.mp hp' with ⟨p, hp, rfl⟩
    rw [hidIf]
    rcases List.mem_cons.mp hp with rfl | hp''
    · dsimp only
      omega
    · have := h.pinchIdsLt p hp''
      omega
  · intro c hc
    obtain ⟨p, hp, he⟩ := h.clawsRef c hc
    exact exists_id_map_update
      (f := fun p => { p with reply_count := p.reply_count + 1 })
      (fun p => rfl) (h := ⟨p, List.mem_cons_of_mem _ hp, he⟩)
  · intro c hc
    obtain ⟨p, hp, he⟩ := h.repinchesRef c hc
    exact exists_id_map_update
      (f := fun p => { p with reply_count := p.reply_count + 1 })
      (fun p => rfl) (h := ⟨p, List.mem_cons_of_mem _ hp, he⟩)
  · intro p' hp' r' hr
    rcases List.mem_map.mp hp' with ⟨p, hp, rfl⟩
    rw [hrtIf] at hr
    rw [hidIf]
    rcases List.mem_cons.mp hp with rfl | hp''
    · dsimp only at hr ⊢
      have hre : r = r' := Option.some.inj hr
      subst hre
      refine ⟨hrlt, ?_⟩
      exact exists_id_map_update
        (f := fun p => { p with reply_count := p.reply_count + 1 })
        (fun p => rfl) (h := hpar.imp
          (fun parent hh => ⟨List.mem_cons_of_mem _ hh.1, hh.2⟩))
    · obtain ⟨hlt, q, hq, he⟩ := h.replyRef p hp'' r' hr
      refine ⟨hlt, ?_⟩
      exact exists_id_map_update
        (f := fun p => { p with reply_count := p.reply_count + 1 })
        (fun p => rfl) (h := ⟨q, List.mem_cons_of_mem _ hq, he⟩)
  · intro p' hp'
    rcases List.mem_map.mp hp' with ⟨p, hp, rfl⟩
    rw [hidIf, hccIf]
    rcases List.mem_cons.mp hp with rfl | hp''
    · dsimp only
      rw [hclaw0]
      rfl
    · exact h.clawCnt p hp''
  · intro p' hp'
    rcases List.mem_map.mp hp' with ⟨p, hp, rfl⟩
    rw [hidIf, hrcIf]
    rcases List.mem_cons.mp hp with rfl | hp''
    · dsimp only
      rw [hrep0]
      rfl
    · exact h.repinchCnt p hp''
  · intro p' hp'
    rcases List.mem_map.mp hp' with ⟨p, hp, rfl⟩
    rw [hidIf, countP_reply_map_update _ r
      (fun p => { p with reply_count := p.reply_count + 1 }) (fun p => rfl),
      List.countP_cons]
    rcases List.mem_cons.mp hp with rfl | hp''
    · rw [if_neg (by dsimp only; omega)]
      dsimp only
      rw [if_neg (by simp only [beq_iff_eq, Option.some.injEq]; omega)]
      rw [hreply0]
      rfl
    · by_cases hpt : p.id = r
      · rw [if_pos hpt]
        rw [if_pos (by simp [hpt])]
        have := h.replyCnt p hp''
        dsimp only
        omega
      · rw [if_neg hpt]
        rw [if_neg (by
          simp only [beq_iff_eq, Option.some.injEq]
          exact fun hh => hpt hh.symm)]
        have := h.replyCnt p hp''
        omega

/-- `processTag` only touches the hashtag tables. -/
theorem processTag_fields (db : DB) (pid : Nat) (t : String) :
    (processTag db pid t).agents = db.agents ∧
    (processTag db pid t).pinches = db.pinches ∧
    (processTag db pid t).claws = db.claws ∧
    (processTag db pid t).repinches = db.repinches ∧
    (processTag db pid t).nextPinchId = db.nextPinchId ∧
    (processTag db pid t).rateEvents = db.rateEvents := by
  unfold processTag
  rcases hfind : db.hashtags.find? (fun x => x.tag == t) with _ | h2 <;>
    simp only [hfind] <;> split <;>
    exact ⟨rfl, rfl, rfl, rfl, rfl, rfl⟩

/-- `processHashtags` only touches the hashtag tables. -/
theorem processHashtags_fields (db : DB) (pid : Nat) (content : String) :
    (processHashtags db pid content).agents = db.agents ∧
    (processHashtags db pid content).pinches = db.pinches ∧
    (processHashtags db pid content).claws = db.claws ∧
    (processHashtags db pid content).repinches = db.repinches ∧
    (processHashtags db pid content).nextPinchId = db.nextPinchId ∧
    (processHashtags db pid content).rateEvents = db.rateEvents := by
  unfold processHashtags
  generalize extractHashtags content = tags
  induction tags generalizing db with
  | nil => exact ⟨rfl, rfl, rfl, rfl, rfl, rfl⟩
  | cons t ts ih =>
    rw [List.foldl_cons]
    obtain ⟨a1, b1, c1, d1, e1, f1⟩ := processTag_fields db pid t
    obtain ⟨a2, b2, c2, d2, e2, f2⟩ := ih (processTag db pid t)
    exact ⟨a2.trans a1, b2.trans b1, c2.trans c1, d2.trans d1, e2.trans e1,
      f2.trans f1⟩

theorem wf_createPinch (db : DB) (h : WF db) (aId : Nat)
    (content : String) (rt qt : Option Nat) (now : Int) :
    WF (createPinch db aId content rt qt now).2 := by
  unfold createPinch
  dsimp only
  split
  · exact h
  · split
    · exact h
    · split
      · exact h
      · split
        · exact h
        · split
          · exact h
          · rename_i hlen hlong hrl hpar hqt
            rcases rt with _ | r
            · have h1 := wf_create_none db h aId (jsTrim content) qt now
              have hf := processHashtags_fields
                { db with
                  pinches := { id := db.nextPinchId, author_id := aId
                               content := jsTrim content, reply_to := none
                               quote_of := qt, claws_count := 0
                               repinch_count := 0, reply_count := 0
                               created_at := now } :: db.pinches
                  nextPinchId := db.nextPinchId + 1 }
                db.nextPinchId (jsTrim content)
              have h3 := WF.of_fields h1 hf.1 hf.2.1 hf.2.2.1 hf.2.2.2.1
                hf.2.2.2.2.1
              have h4 := wf_updateAgentRow _ h3 aId
                (fun a => { a with karma := a.karma + 1 })
                (fun a h0 => by dsimp only; omega)
              exact WF.of_fields h4 rfl rfl rfl rfl rfl
            · have hparent : ∃ parent ∈ db.pinches, parent.id = r := by
                rcases hfind : db.pinches.find? (fun p => p.id == r)
                  with _ | parent
                · exact absurd (by simp [hfind]) hpar
                · exact ⟨parent, List.mem_of_find?_eq_some hfind,
                    by simpa using List.find?_some hfind⟩
              have h1 := wf_create_some db h aId (jsTrim content) r qt now
                hparent
              have hf := processHashtags_fields
                (updatePinchRow
                  { db with
                    pinches := { id := db.nextPinchId, author_id := aId
                                 content := jsTrim content
                                 reply_to := some r, quote_of := qt
                                 claws_count := 0, repinch_count := 0
                                 reply_count := 0
                                 created_at := now } :: db.pinches
                    nextPinchId := db.nextPinchId + 1 } r
                  (fun p => { p with reply_count := p.reply_count + 1 }))
                db.nextPinchId (jsTrim content)
              have h3 := WF.of_fields h1 hf.1 hf.2.1 hf.2.2.1 hf.2.2.2.1
                hf.2.2.2.2.1
              have h4 := wf_updateAgentRow _ h3 aId
                (fun a => { a with karma := a.karma + 1 })
                (fun a h0 => by dsimp only; omega)
              exact WF.of_fields h4 rfl rfl rfl rfl rfl

/-- Counting pinch rows after the DELETE of one pinch: with unique ids, the
filter removes exactly the deleted row from the count. -/
theorem countP_filter_out_id {l : List Pinch} (hN : (l.map Pinch.id).Nodup)
    {X : Pinch} (hX : X ∈ l) {id : Nat} (hXid : X.id = id)
    (p : Pinch → Bool) :
    l.countP p =
      (l.filter (fun q => q.id ≠ id)).countP p + (if p X then 1 else 0) := by
  induction l with
  | nil => cases hX
  | cons c tl ih =>
    by_cases hcid : c.id = id
    · have hXc : X = c := by
        rcases List.mem_cons.mp hX with rfl | hX'
        · rfl
        · exfalso
          have : X.id ∈ tl.map Pinch.id := List.mem_map_of_mem _ hX'
          rw [hXid, ← hcid] at this
          exact (List.nodup_cons.mp hN).1 this
      subst hXc
      have hfl : tl.filter (fun q => q.id ≠ id) = tl := by
        apply List.filter_eq_self.mpr
        intro q hq
        have : q.id ∈ tl.map Pinch.id := List.mem_map_of_mem _ hq
        simp only [ne_eq, decide_not, Bool.not_eq_eq_eq_not, Bool.not_true,
          decide_eq_false_iff_not]
        intro hqe
        rw [hqe, ← hcid] at this
        exact (List.nodup_cons.mp hN).1 this
      rw [List.countP_cons, List.filter_cons_of_neg (by simp [hcid]), hfl]
    · have hX' : X ∈ tl := by
        rcases List.mem_cons.mp hX with rfl | hX'
        · exact absurd hXid hcid
        · exact hX'
      rw [List.countP_cons, List.filter_cons_of_pos (by simp [hcid]),
        List.countP_cons, ih (List.nodup_cons.mp hN).2 hX']
      by_cases hp : p X = true <;> by_cases hq : p c = true <;>
        simp [hp, hq]

/-- The hashtag-decrement loop of `deletePinch` only touches the hashtags
table. -/
theorem hashtagDecFold_fields (l : List (Nat × Nat)) (db : DB) :
    ((l.foldl (fun d ph =>
      { d with hashtags := d.hashtags.map (fun h =>
          if h.id = ph.2 then
            { h with pinch_count := max (h.pinch_count - 1) 0 }
          else h) }) db).agents = db.agents ∧
    (l.foldl (fun d ph =>
      { d with hashtags := d.hashtags.map (fun h =>
          if h.id = ph.2 then
            { h with pinch_count := max (h.pinch_count - 1) 0 }
          else h) }) db).pinches = db.pinches) ∧
    (l.foldl (fun d ph =>
      { d with hashtags := d.hashtags.map (fun h =>
          if h.id = ph.2 then
            { h with pinch_count := max (h.pinch_count - 1) 0 }
          else h) }) db).claws = db.claws ∧
    (l.foldl (fun d ph =>
      { d with hashtags := d.hashtags.map (fun h =>
          if h.id = ph.2 then
            { h with pinch_count := max (h.pinch_count - 1) 0 }
          else h) }) db).repinches = db.repinches ∧
    (l.foldl (fun d ph =>
      { d with hashtags := d.hashtags.map (fun h =>
          if h.id = ph.2 then
            { h with pinch_count := max (h.pinch_count - 1) 0 }
          else h) }) db).pinch_hashtags = db.pinch_hashtags ∧
    (l.foldl (fun d ph =>
      { d with hashtags := d.hashtags.map (fun h =>
          if h.id = ph.2 then
            { h with pinch_count := max (h.pinch_count - 1) 0 }
          else h) }) db).nextPinchId = db.nextPinchId := by
  induction l generalizing db with
  | nil => exact ⟨⟨rfl, rfl⟩, rfl, rfl, rfl, rfl⟩
  | cons ph phs ih =>
    rw [List.foldl_cons]
    obtain ⟨⟨a2, b2⟩, c2, d2, e2, f2⟩ := ih _
    exact ⟨⟨a2, b2⟩, c2, d2, e2, f2⟩

/-- Deleting a non-reply pinch (cascading its relation rows and clearing
dangling references) preserves the invariant. -/
theorem wf_delete_noreply (db : DB) (h : WF db) (id : Nat) (X : Pinch)
    (hXmem : X ∈ db.pinches) (hXid : X.id = id) (hXrt : X.reply_to = none) :
    WF { db with
      pinches := (db.pinches.filter (fun p => p.id ≠ id)).map (fun p =>
        { p with
          reply_to := if p.reply_to = some id then none else p.reply_to
          quote_of := if p.quote_of = some id then none else p.quote_of })
      claws := db.claws.filter (fun cl => cl.2 ≠ id)
      repinches := db.repinches.filter (fun rp => rp.2 ≠ id) } := by
  refine ⟨?_, ?_, h.clawsN.filter _, h.repinchesN.filter _, ?_, ?_, ?_, ?_,
    ?_, ?_, h.karmaNN⟩
  all_goals dsimp only
  · rw [List.map_map]
    have : (Pinch.id ∘ fun p : Pinch =>
        { p with
          reply_to := if p.reply_to = some id then none else p.reply_to
          quote_of := if p.quote_of = some id then none else p.quote_of }) =
        Pinch.id := rfl
    rw [this]
    exact List.Nodup.sublist
      ((List.filter_sublist db.pinches).map Pinch.id) h.pinchIds
  · intro p' hp'
    rcases List.mem_map.mp hp' with ⟨q, hq, rfl⟩
    exact h.pinchIdsLt q (List.mem_of_mem_filter hq)
  · intro c hc
    have hc2 : c.2 ≠ id := by simpa using List.of_mem_filter hc
    obtain ⟨p, hp, he⟩ := h.clawsRef c (List.mem_of_mem_filter hc)
    exact ⟨_, List.mem_map_of_mem _
      (List.mem_filter.mpr ⟨hp, by simpa [he] using hc2⟩), he⟩
  · intro c hc
    have hc2 : c.2 ≠ id := by simpa using List.of_mem_filter hc
    obtain ⟨p, hp, he⟩ := h.repinchesRef c (List.mem_of_mem_filter hc)
    exact ⟨_, List.mem_map_of_mem _
      (List.mem_filter.mpr ⟨hp, by simpa [he] using hc2⟩), he⟩
  · intro p' hp' r' hr
    rcases List.mem_map.mp hp' with ⟨q, hq, rfl⟩
    have hq2 := List.mem_of_mem_filter hq
    dsimp only at hr ⊢
    by_cases hcase : q.reply_to = some id
    · rw [if_pos hcase] at hr
      exact Option.noConfusion hr
    · rw [if_neg hcase] at hr
      have hrid : r' ≠ id := by
        intro hcontra
        rw [hcontra] at hr
        exact hcase hr
      obtain ⟨hlt, t, ht, hte⟩ := h.replyRef q hq2 r' hr
      exact ⟨hlt, _, List.mem_map_of_mem _
        (List.mem_filter.mpr ⟨ht, by simpa [hte] using hrid⟩), hte⟩
  · intro p' hp'
    rcases List.mem_map.mp hp' with ⟨q, hq, rfl⟩
    have hq2 := List.mem_of_mem_filter hq
    have hqne : q.id ≠ id := by simpa using List.of_mem_filter hq
    dsimp only
    rw [List.countP_filter]
    have hcnt : db.claws.countP
        (fun c => (c.2 == q.id) && decide (c.2 ≠ id)) =
        db.claws.countP (fun c => c.2 == q.id) := by
      apply List.countP_congr
      intro c _
      simp only [Bool.and_eq_true, beq_iff_eq, decide_eq_true_eq]
      constructor
      · exact fun hh => hh.1
      · exact fun h1 => ⟨h1, by rw [h1]; exact hqne⟩
    rw [hcnt]
    exact h.clawCnt q hq2
  · intro p' hp'
    rcases List.mem_map.mp hp' with ⟨q, hq, rfl⟩
    have hq2 := List.mem_of_mem_filter hq
    have hqne : q.id ≠ id := by simpa using List.of_mem_filter hq
    dsimp only
    rw [List.countP_filter]
    have hcnt : db.repinches.countP
        (fun c => (c.2 == q.id) && decide (c.2 ≠ id)) =
        db.repinches.countP (fun c => c.2 == q.id) := by
      apply List.countP_congr
      intro c _
      simp only [Bool.and_eq_true, beq_iff_eq, decide_eq_true_eq]
      constructor
      · exact fun hh => hh.1
      · exact fun h1 => ⟨h1, by rw [h1]; exact hqne⟩
    rw [hcnt]
    exact h.repinchCnt q hq2
  · intro p' hp'
    rcases List.mem_map.mp hp' with ⟨q, hq, rfl⟩
    have hq2 := List.mem_of_mem_filter hq
    have hqne : q.id ≠ id := by simpa using List.of_mem_filter hq
    dsimp only
    rw [List.countP_map]
    have hpt : ∀ x ∈ db.pinches.filter (fun p => p.id ≠ id),
        ((fun x : Pinch => x.reply_to == some q.id) ∘ fun p : Pinch =>
          { p with
            reply_to := if p.reply_to = some id then none else p.reply_to
            quote_of := if p.quote_of = some id then none
              else p.quote_of }) x = true ↔
          (x.reply_to == some q.id) = true := by
      intro x _
      dsimp only [Function.comp]
      by_cases hxc : x.reply_to = some id
      · rw [if_pos hxc, hxc]
        simp only [beq_iff_eq, Option.some.injEq]
        constructor
        · exact fun hh => Option.noConfusion hh
        · exact fun hh => absurd hh.symm hqne
      · rw [if_neg hxc]
    rw [List.countP_congr hpt]
    have hout := countP_filter_out_id h.pinchIds hXmem hXid
      (fun x => x.reply_to == some q.id)
    have hXpred : (X.reply_to == some q.id) = false := by
      rw [hXrt]
      rfl
    rw [hXpred] at hout
    simp only [Bool.false_eq_true, if_false, add_zero] at hout
    have h0 := h.replyCnt q hq2
    omega

/-- Deleting a reply pinch: its parent's `reply_count` is clamped down by
one in the same unit of work, and the invariant is preserved. -/
theorem wf_delete_reply (db : DB) (h : WF db) (id r : Nat) (X : Pinch)
    (hXmem : X ∈ db.pinches) (hXid : X.id = id)
    (hXrt : X.reply_to = some r) :
    WF { db with
      pinches := ((db.pinches.map (fun p => if p.id = r then
          { p with reply_count := max (p.reply_count - 1) 0 }
        else p)).filter (fun p => p.id ≠ id)).map (fun p =>
        { p with
          reply_to := if p.reply_to = some id then none else p.reply_to
          quote_of := if p.quote_of = some id then none else p.quote_of })
      claws := db.claws.filter (fun cl => cl.2 ≠ id)
      repinches := db.repinches.filter (fun rp => rp.2 ≠ id) } := by
  have hrne : r ≠ id := by
    have := (h.replyRef X hXmem r hXrt).1
    omega
  have hidC : ∀ p : Pinch, ((if p.id = r then
      { p with reply_count := max (p.reply_count - 1) 0 } else p) :
        Pinch).id = p.id := by
    intro p
    split <;> rfl
  have hrtC : ∀ p : Pinch, ((if p.id = r then
      { p with reply_count := max (p.reply_count - 1) 0 } else p) :
        Pinch).reply_to = p.reply_to := by
    intro p
    split <;> rfl
  have hccC : ∀ p : Pinch, ((if p.id = r then
      { p with reply_count := max (p.reply_count - 1) 0 } else p) :
        Pinch).claws_count = p.claws_count := by
    intro p
    split <;> rfl
  have hrcC : ∀ p : Pinch, ((if p.id = r then
      { p with reply_count := max (p.reply_count - 1) 0 } else p) :
        Pinch).repinch_count = p.repinch_count := by
    intro p
    split <;> rfl
  have hMid : (db.pinches.map (fun p => if p.id = r then
      { p with reply_count := max (p.reply_count - 1) 0 }
    else p)).map Pinch.id = db.pinches.map Pinch.id :=
    map_update_pinch_ids _ r _ (fun p => rfl)
  refine ⟨?_, ?_, h.clawsN.filter _, h.repinchesN.filter _, ?_, ?_, ?_, ?_,
    ?_, ?_, h.karmaNN⟩
  all_goals dsimp only
  · rw [List.map_map]
    have hcomp : (Pinch.id ∘ fun p : Pinch =>
        { p with
          reply_to := if p.reply_to = some id then none else p.reply_to
          quote_of := if p.quote_of = some id then none else p.quote_of }) =
        Pinch.id := rfl
    rw [hcomp]
    refine List.Nodup.sublist ((List.filter_sublist _).map Pinch.id) ?_
    rw [hMid]
    exact h.pinchIds
  · intro p' hp'
    rcases List.mem_map.mp hp' with ⟨q, hq, rfl⟩
    rcases List.mem_map.mp (List.mem_of_mem_filter hq) with ⟨p, hp, rfl⟩
    show ((if p.id = r then _ else p) : Pinch).id < _
    rw [hidC]
    exact h.pinchIdsLt p hp
  · intro c hc
    have hc2 : c.2 ≠ id := by simpa using List.of_mem_filter hc
    obtain ⟨p, hp, he⟩ := h.clawsRef c (List.mem_of_mem_filter hc)
    refine ⟨_, List.mem_map_of_mem _ (List.mem_filter.mpr
      ⟨List.mem_map_of_mem _ hp, by simp only [hidC, decide_eq_true_eq]; rw [he]; exact hc2⟩), ?_⟩
    show ((if p.id = r then _ else p) : Pinch).id = c.2
    rw [hidC]
    exact he
  · intro c hc
    have hc2 : c.2 ≠ id := by simpa using List.of_mem_filter hc
    obtain ⟨p, hp, he⟩ := h.repinchesRef c (List.mem_of_mem_filter hc)
    refine ⟨_, List.mem_map_of_mem _ (List.mem_filter.mpr
      ⟨List.mem_map_of_mem _ hp, by simp only [hidC, decide_eq_true_eq]; rw [he]; exact hc2⟩), ?_⟩
    show ((if p.id = r then _ else p) : Pinch).id = c.2
    rw [hidC]
    exact he
  · intro p' hp' r' hr
    rcases List.mem_map.mp hp' with ⟨q, hq, rfl⟩
    rcases List.mem_map.mp (List.mem_of_mem_filter hq) with ⟨p, hp, rfl⟩
    dsimp only at hr ⊢
    rw [hrtC] at hr
    rw [hidC]
    by_cases hcase : p.reply_to = some id
    · rw [if_pos hcase] at hr
      exact Option.noConfusion hr
    · rw [if_neg hcase] at hr
      have hrid : r' ≠ id := by
        intro hcontra
        rw [hcontra] at hr
        exact hcase hr
      obtain ⟨hlt, t, ht, hte⟩ := h.replyRef p hp r' hr
      refine ⟨hlt, _, List.mem_map_of_mem _ (List.mem_filter.mpr
        ⟨List.mem_map_of_mem _ ht, by simp only [hidC, decide_eq_true_eq]; rw [hte]; exact hrid⟩), ?_⟩
      show ((if t.id = r then _ else t) : Pinch).id = r'
      rw [hidC]
      exact hte
  · intro p' hp'
    rcases List.mem_map.mp hp' with ⟨q, hq, rfl⟩
    rcases List.mem_map.mp (List.mem_of_mem_filter hq) with ⟨p, hp, rfl⟩
    have hqne : p.id ≠ id := by
      have := List.of_mem_filter hq
      rw [show ((if p.id = r then
        { p with reply_count := max (p.reply_count - 1) 0 }
          else p) : Pinch).id = p.id from hidC p] at this
      simpa using this
    dsimp only
    rw [hidC, hccC, List.countP_filter]
    have hcnt : db.claws.countP
        (fun c => (c.2 == p.id) && decide (c.2 ≠ id)) =
        db.claws.countP (fun c => c.2 == p.id) := by
      apply List.countP_congr
      intro c _
      simp only [Bool.and_eq_true, beq_iff_eq, decide_eq_true_eq]
      exact ⟨fun hh => hh.1, fun h1 => ⟨h1, by rw [h1]; exact hqne⟩⟩
    rw [hcnt]
    exact h.clawCnt p hp
  · intro p' hp'
    rcases List.mem_map.mp hp' with ⟨q, hq, rfl⟩
    rcases List.mem_map.mp (List.mem_of_mem_filter hq) with ⟨p, hp, rfl⟩
    have hqne : p.id ≠ id := by
      have := List.of_mem_filter hq
      rw [show ((if p.id = r then
        { p with reply_count := max (p.reply_count - 1) 0 }
          else p) : Pinch).id = p.id from hidC p] at this
      simpa using this
    dsimp only
    rw [hidC, hrcC, List.countP_filter]
    have hcnt : db.repinches.countP
        (fun c => (c.2 == p.id) && decide (c.2 ≠ id)) =
        db.repinches.countP (fun c => c.2 == p.id) := by
      apply List.countP_congr
      intro c _
      simp only [Bool.and_eq_true, beq_iff_eq, decide_eq_true_eq]
      exact ⟨fun hh => hh.1, fun h1 => ⟨h1, by rw [h1]; exact hqne⟩⟩
    rw [hcnt]
    exact h.repinchCnt p hp
  · intro p' hp'
    rcases List.mem_map.mp hp' with ⟨q, hq, rfl⟩
    rcases List.mem_map.mp (List.mem_of_mem_filter hq) with ⟨p, hp, rfl⟩
    have hqne : p.id ≠ id := by
      have := List.of_mem_filter hq
      rw [show ((if p.id = r then
        { p with reply_count := max (p.reply_count - 1) 0 }
          else p) : Pinch).id = p.id from hidC p] at this
      simpa using this
    dsimp only
    rw [hidC, List.countP_map]
    have hpt : ∀ x ∈ (db.pinches.map (fun p => if p.id = r then
        { p with reply_count := max (p.reply_count - 1) 0 }
      else p)).filter (fun p => p.id ≠ id),
        ((fun x : Pinch => x.reply_to == some p.id) ∘ fun pp : Pinch =>
          { pp with
            reply_to := if pp.reply_to = some id then none
              else pp.reply_to
            quote_of := if pp.quote_of = some id then none
              else pp.quote_of }) x = true ↔
          (x.reply_to == some p.id) = true := by
      intro x _
      dsimp only [Function.comp]
      by_cases hxc : x.reply_to = some id
      · rw [if_pos hxc, hxc]
        simp only [beq_iff_eq, Option.some.injEq]
        exact ⟨fun hh => Option.noConfusion hh,
          fun hh => absurd hh.symm hqne⟩
      · rw [if_neg hxc]
    rw [List.countP_congr hpt, List.countP_filter, List.countP_map]
    have hdrop : ∀ x ∈ db.pinches,
        ((fun a : Pinch => (a.reply_to == some p.id) && decide (a.id ≠ id)) ∘
          fun pp : Pinch => if pp.id = r then
            { pp with reply_count := max (pp.reply_count - 1) 0 }
          else pp) x = true ↔
        ((x.reply_to == some p.id) && decide (x.id ≠ id)) = true := by
      intro x _
      dsimp only [Function.comp]
      rw [hrtC, hidC]
    rw [List.countP_congr hdrop, ← List.countP_filter]
    have hout := countP_filter_out_id h.pinchIds hXmem hXid
      (fun x => x.reply_to == some p.id)
    have h0 := h.replyCnt p hp
    by_cases hpr : p.id = r
    · have hXpred : (X.reply_to == some p.id) = true := by
        rw [hXrt, hpr]
        exact beq_self_eq_true _
      rw [hXpred] at hout
      simp only [if_true] at hout
      rw [if_pos hpr]
      dsimp only
      omega
    · have hXpred : (X.reply_to == some p.id) = false := by
        rw [hXrt]
        simp only [beq_eq_false_iff_ne, ne_eq, Option.some.injEq]
        exact fun hh => hpr hh.symm
      rw [hXpred] at hout
      simp only [Bool.false_eq_true, if_false, add_zero] at hout
      rw [if_neg hpr]
      omega

theorem wf_deletePinch (db : DB) (h : WF db) (aId id : Nat) :
    WF (deletePinch db aId id).2 := by
  unfold deletePinch
  rcases hf : db.pinches.find? (fun p => p.id == id) with _ | pinch
  · simp only [hf]
    exact h
  · simp only [hf]
    have hmem : pinch ∈ db.pinches := List.mem_of_find?_eq_some hf
    have hpid : pinch.id = id := by simpa using List.find?_some hf
    split
    · exact h
    · dsimp only
      rcases hrt : pinch.reply_to with _ | r
      · simp only [hrt]
        have hfold := hashtagDecFold_fields
          (db.pinch_hashtags.filter (fun ph => ph.1 == id)) db
        exact WF.of_fields (wf_delete_noreply db h id pinch hmem hpid hrt)
          hfold.1.1 (by rw [hfold.1.2]) (by rw [hfold.2.1])
          (by rw [hfold.2.2.1]) hfold.2.2.2.2
      · simp only [hrt]
        dsimp only [updatePinchRow]
        have hfold := hashtagDecFold_fields
          (db.pinch_hashtags.filter (fun ph => ph.1 == id))
          { db with pinches := db.pinches.map (fun p => if p.id = r then
              { p with reply_count := max (p.reply_count - 1) 0 } else p) }
        exact WF.of_fields (wf_delete_reply db h id r pinch hmem hpid hrt)
          hfold.1.1 (by rw [hfold.1.2]) (by rw [hfold.2.1])
          (by rw [hfold.2.2.1]) hfold.2.2.2.2

/-- Every reachable state satisfies the global invariant. -/
theorem reachable_wf {db : DB} (h : Reachable db) : WF db := by
  induction h with
  | init => exact wf_initial
  | register db n d k v _ ih => exact wf_register db ih n d k v
  | create db aId content rt qt now _ ih =>
    exact wf_createPinch db ih aId content rt qt now
  | delete db aId id _ ih => exact wf_deletePinch db ih aId id
  | claw db aId id now _ ih => exact wf_toggleClaw db ih aId id now
  | repinch db aId id _ ih => exact wf_toggleRepinch db ih aId id
  | follow db aId name now _ ih => exact wf_follow db ih aId name now
  | unfollow db aId name _ ih => exact wf_unfollow db ih aId name

/-! ### Claim theorems -/

/-- C1: after any sequence of operations (createPost, deletePost,
toggleLike/claw, toggleRepost/repinch — together with registrations and
follows), for every existing post its `like_count` (claws_count) equals the
number of existing Like (claws) rows referencing it, its `repost_count`
(repinch_count) equals the number of existing Repost (repinches) rows
referencing it, and its `reply_count` equals the number of non-deleted posts
whose `reply_to` references it. -/
theorem C1_counter_derivation (db : DB) (h : Reachable db) :
    ∀ p ∈ db.pinches,
      p.claws_count = (db.claws.countP (fun c => c.2 == p.id) : Int) ∧
      p.repinch_count =
        (db.repinches.countP (fun c => c.2 == p.id) : Int) ∧
      p.reply_count =
        (db.pinches.countP (fun q => q.reply_to == some p.id) : Int) := by
  have hw := reachable_wf h
  exact fun p hp => ⟨hw.clawCnt p hp, hw.repinchCnt p hp, hw.replyCnt p hp⟩

/-- A concrete state reached by registering two agents, posting a pinch and
a reply, and toggling a claw and a repinch onto the first pinch. -/
def dbC1 : DB :=
  (toggleRepinch (toggleClaw (createPinch (createPinch (register (register
    initialDB "alice" "" "k1" "v1").2 "bob" "" "k2" "v2").2
    1 "hello #AI #ai" none none 0).2 2 "a reply" (some 1) none 10).2
    2 1 20).2 2 1).2

theorem C1_counter_derivation_witness :
    ({ id := 1, author_id := 1, content := "hello #AI #ai", reply_to := none,
       quote_of := none, claws_count := 1, repinch_count := 1,
       reply_count := 1, created_at := 0 } : Pinch) ∈ dbC1.pinches ∧
    ((1 : Int) = (dbC1.claws.countP (fun c => c.2 == 1) : Int) ∧
     (1 : Int) = (dbC1.repinches.countP (fun c => c.2 == 1) : Int) ∧
     (1 : Int) =
       (dbC1.pinches.countP (fun q => q.reply_to == some 1) : Int)) :=
  ⟨by decide, C1_counter_derivation dbC1
    (Reachable.repinch _ 2 1 (Reachable.claw _ 2 1 20 (Reachable.create _ 2
      "a reply" (some 1) none 10 (Reachable.create _ 1 "hello #AI #ai" none
        none 0 (Reachable.register _ "bob" "" "k2" "v2"
          (Reachable.register _ "alice" "" "k1" "v1" Reachable.init))))))
    { id := 1, author_id := 1, content := "hello #AI #ai", reply_to := none,
      quote_of := none, claws_count := 1, repinch_count := 1,
      reply_count := 1, created_at := 0 } (by decide)⟩

/-- State with two agents, one pinch by the first agent, and the first
agent's karma left symbolic: the base of the karma-unboundedness pump. -/
def pumpState (k : Int) : DB :=
  { agents := [{ id := 1, name := "alice", description := "", api_key := "k1",
                 verification_code := "v1", claimed := false, karma := k },
               { id := 2, name := "bob", description := "", api_key := "k2",
                 verification_code := "v2", claimed := false, karma := 0 }]
    pinches := [{ id := 1, author_id := 1, content := "hi", reply_to := none,
                  quote_of := none, claws_count := 0, repinch_count := 0,
                  reply_count := 0, created_at := 0 }]
    follows := [], claws := [], repinches := [], hashtags := []
    pinch_hashtags := [], rateEvents := [(1, "pinch", 0)]
    nextAgentId := 3, nextPinchId := 2, nextHashtagId := 1 }

/-- One repinch/un-repinch round trip restores the whole state except the
author's karma, which gains +2 (the asymmetric repost karma). -/
theorem pumpState_step (k : Int) :
    (toggleRepinch (toggleRepinch (pumpState k) 2 1).2 2 1).2 =
      pumpState (k + 2) := rfl

theorem pumpState_reachable : ∀ n : Nat, Reachable (pumpState (1 + 2 * n))
  | 0 => by
    have hbase : (createPinch (register (register initialDB "alice" "" "k1"
        "v1").2 "bob" "" "k2" "v2").2 1 "hi" none none 0).2 = pumpState 1 :=
      by decide
    have h0 : Reachable (createPinch (register (register initialDB "alice"
        "" "k1" "v1").2 "bob" "" "k2" "v2").2 1 "hi" none none 0).2 :=
      Reachable.create _ 1 "hi" none none 0
        (Reachable.register _ "bob" "" "k2" "v2"
          (Reachable.register _ "alice" "" "k1" "v1" Reachable.init))
    have : (1 : Int) + 2 * (0 : Nat) = 1 := by norm_num
    rw [this, ← hbase]
    exact h0
  | n + 1 => by
    have ih := pumpState_reachable n
    have heq : pumpState (1 + 2 * ((n : Nat) + 1 : Nat)) =
        (toggleRepinch (toggleRepinch (pumpState (1 + 2 * n)) 2 1).2 2 1).2 :=
      by rw [pumpState_step]; congr 1
    rw [heq]
    exact Reachable.repinch _ 2 1 (Reachable.repinch _ 2 1 ih)

/-- C5: in every reachable state every agent's karma is ≥ 0 (decrements
saturate at 0), and karma has no upper bound: states with arbitrarily large
karma are reachable. -/
theorem C5_karma_nonneg_unbounded :
    (∀ db, Reachable db → ∀ a ∈ db.agents, 0 ≤ a.karma) ∧
    (∀ bound : Int, ∃ db, Reachable db ∧ ∃ a ∈ db.agents,
      bound < a.karma) := by
  constructor
  · intro db h a ha
    exact (reachable_wf h).karmaNN a ha
  · intro bound
    refine ⟨pumpState (1 + 2 * bound.toNat),
      pumpState_reachable bound.toNat, ?_⟩
    refine ⟨_, List.mem_cons_self _ _, ?_⟩
    show bound < 1 + 2 * (bound.toNat : Int)
    omega

/-- A concrete state for the C5 witness: two registrations, a pinch, a claw
and an un-claw. -/
def dbC5 : DB :=
  (toggleClaw (toggleClaw (createPinch (register (register initialDB
    "alice" "" "k1" "v1").2 "bob" "" "k2" "v2").2
    1 "hi" none none 0).2 2 1 20).2 2 1 30).2

theorem C5_karma_nonneg_unbounded_witness :
    (∀ a ∈ dbC5.agents, 0 ≤ a.karma) ∧
    (∃ db, Reachable db ∧ ∃ a ∈ db.agents, (1000000 : Int) < a.karma) :=
  ⟨C5_karma_nonneg_unbounded.1 dbC5
    (Reachable.claw _ 2 1 30 (Reachable.claw _ 2 1 20 (Reachable.create _ 1
      "hi" none none 0 (Reachable.register _ "bob" "" "k2" "v2"
        (Reachable.register _ "alice" "" "k1" "v1" Reachable.init))))),
  C5_karma_nonneg_unbounded.2 1000000⟩

/-- C2: from a state where the agent does not like the post, calling the
claw toggle twice returns clawed=true then clawed=false, the post's
claws_count returns to its original value, and the second (removal) call
does not consult the rate limiter: its outcome is independent of the
recorded events and no event is recorded by it. -/
theorem C2_claw_toggle_roundtrip (db : DB) (aId pid : Nat) (now1 now2 : Int)
    (p : Pinch) (hp : p ∈ db.pinches) (hpid : p.id = pid)
    (hN : (db.pinches.map Pinch.id).Nodup)
    (hcc : 0 ≤ p.claws_count)
    (hnotliked : (aId, pid) ∉ db.claws)
    (hallowed : checkRateLimit db aId "claw" now1 = true) :
    (toggleClaw db aId pid now1).1 = ToggleResult.ok true ∧
    (toggleClaw (toggleClaw db aId pid now1).2 aId pid now2).1 =
      ToggleResult.ok false ∧
    (∃ p' ∈ (toggleClaw (toggleClaw db aId pid now1).2 aId pid
        now2).2.pinches, p'.id = pid ∧ p'.claws_count = p.claws_count) ∧
    (∀ evs, (toggleClaw { (toggleClaw db aId pid now1).2 with
        rateEvents := evs } aId pid now2).1 = ToggleResult.ok false) ∧
    (toggleClaw (toggleClaw db aId pid now1).2 aId pid now2).2.rateEvents =
      (toggleClaw db aId pid now1).2.rateEvents := by
  have h1 : db.pinches.find? (fun q => q.id == pid) = some p :=
    find?_key_eq Pinch.id hN hp hpid
  have hfst1 : (toggleClaw db aId pid now1).1 = ToggleResult.ok true := by
    unfold toggleClaw
    simp only [h1]
    rw [if_neg hnotliked, if_neg (fun hc => hc hallowed)]
  have hpinches1 : (toggleClaw db aId pid now1).2.pinches =
      db.pinches.map (fun q => if q.id = pid then
        { q with claws_count := q.claws_count + 1 } else q) := by
    unfold toggleClaw
    simp only [h1]
    rw [if_neg hnotliked, if_neg (fun hc => hc hallowed)]
    dsimp only
    split <;> rfl
  have hclaws1 : (toggleClaw db aId pid now1).2.claws =
      (aId, pid) :: db.claws := by
    unfold toggleClaw
    simp only [h1]
    rw [if_neg hnotliked, if_neg (fun hc => hc hallowed)]
    dsimp only
    split <;> rfl
  refine ⟨hfst1, ?_⟩
  generalize hdb1 : (toggleClaw db aId pid now1).2 = db1
  rw [hdb1] at hpinches1 hclaws1
  have hbump : (fun q => if q.id = pid then
      { q with claws_count := q.claws_count + 1 } else q) p =
      { p with claws_count := p.claws_count + 1 } := if_pos hpid
  have hN1 : (db1.pinches.map Pinch.id).Nodup := by
    rw [hpinches1, map_update_pinch_ids _ pid
      (fun q => { q with claws_count := q.claws_count + 1 }) (fun q => rfl)]
    exact hN
  have hp1 : ({ p with claws_count := p.claws_count + 1 } : Pinch) ∈
      db1.pinches := by
    rw [hpinches1, ← hbump]
    exact List.mem_map_of_mem _ hp
  have hfind2 : db1.pinches.find? (fun q => q.id == pid) =
      some { p with claws_count := p.claws_count + 1 } :=
    find?_key_eq Pinch.id hN1 hp1 hpid
  have hex2 : (aId, pid) ∈ db1.claws := by
    rw [hclaws1]
    exact List.mem_cons_self _ _
  refine ⟨?_, ?_, ?_, ?_⟩
  · unfold toggleClaw
    simp only [hfind2]
    rw [if_pos hex2]
  · refine ⟨(fun q => if q.id = pid then
      { q with claws_count := max (q.claws_count - 1) 0 } else q)
        { p with claws_count := p.claws_count + 1 }, ?_, ?_, ?_⟩
    · show _ ∈ (toggleClaw db1 aId pid now2).2.pinches
      have hpinches2 : (toggleClaw db1 aId pid now2).2.pinches =
          db1.pinches.map (fun q => if q.id = pid then
            { q with claws_count := max (q.claws_count - 1) 0 } else q) := by
        unfold toggleClaw
        simp only [hfind2]
        rw [if_pos hex2]
        dsimp only
        split <;> rfl
      rw [hpinches2]
      exact List.mem_map_of_mem _ hp1
    · dsimp only
      rw [if_pos hpid]
      exact hpid
    · dsimp only
      rw [if_pos hpid]
      dsimp only
      omega
  · intro evs
    unfold toggleClaw
    dsimp only
    simp only [hfind2]
    rw [if_pos (show (aId, pid) ∈
      ({ db1 with rateEvents := evs } : DB).claws from hex2)]
  · unfold toggleClaw
    simp only [hfind2]
    rw [if_pos hex2]
    dsimp only
    split <;> rfl

/-- A concrete state for the C2 witness: two agents and one pinch. -/
def dbC2 : DB :=
  (createPinch (register (register initialDB "alice" "" "k1" "v1").2
    "bob" "" "k2" "v2").2 1 "hi" none none 0).2

theorem C2_claw_toggle_roundtrip_witness :
    (toggleClaw dbC2 2 1 20).1 = ToggleResult.ok true ∧
    (toggleClaw (toggleClaw dbC2 2 1 20).2 2 1 30).1 =
      ToggleResult.ok false ∧
    (∃ p' ∈ (toggleClaw (toggleClaw dbC2 2 1 20).2 2 1 30).2.pinches,
      p'.id = 1 ∧ p'.claws_count =
        ({ id := 1, author_id := 1, content := "hi", reply_to := none
           quote_of := none, claws_count := 0, repinch_count := 0
           reply_count := 0, created_at := 0 } : Pinch).claws_count) ∧
    (∀ evs, (toggleClaw { (toggleClaw dbC2 2 1 20).2 with
        rateEvents := evs } 2 1 30).1 = ToggleResult.ok false) ∧
    (toggleClaw (toggleClaw dbC2 2 1 20).2 2 1 30).2.rateEvents =
      (toggleClaw dbC2 2 1 20).2.rateEvents :=
  C2_claw_toggle_roundtrip dbC2 2 1 20 30
    { id := 1, author_id := 1, content := "hi", reply_to := none
      quote_of := none, claws_count := 0, repinch_count := 0
      reply_count := 0, created_at := 0 }
    (by decide) (by decide) (by decide) (by decide) (by decide) (by decide)

/-- C3: the repinch toggle is asymmetric in karma — creating the relation
adds +2 karma to the post's author when the author is not the acting agent,
while removing it decrements the post's repinch_count but leaves the whole
agents table (hence every karma) unchanged. -/
theorem C3_repinch_karma_asymmetry (db : DB) (aId pid : Nat) (p : Pinch)
    (hp : p ∈ db.pinches) (hpid : p.id = pid)
    (hN : (db.pinches.map Pinch.id).Nodup) :
    ((aId, pid) ∈ db.repinches →
      (toggleRepinch db aId pid).2.agents = db.agents ∧
      ∃ p' ∈ (toggleRepinch db aId pid).2.pinches, p'.id = pid ∧
        p'.repinch_count = max (p.repinch_count - 1) 0) ∧
    ((aId, pid) ∉ db.repinches → p.author_id ≠ aId →
      ∀ a ∈ db.agents, a.id = p.author_id →
        ∃ a' ∈ (toggleRepinch db aId pid).2.agents, a'.id = p.author_id ∧
          a'.karma = a.karma + 2) := by
  have h1 : db.pinches.find? (fun q => q.id == pid) = some p :=
    find?_key_eq Pinch.id hN hp hpid
  constructor
  · intro hex
    unfold toggleRepinch
    simp only [h1]
    rw [if_pos hex]
    refine ⟨rfl, (fun q => if q.id = pid then
      { q with repinch_count := max (q.repinch_count - 1) 0 } else q) p,
      List.mem_map_of_mem _ hp, ?_, ?_⟩
    · dsimp only
      rw [if_pos hpid]
      exact hpid
    · dsimp only
      rw [if_pos hpid]
  · intro hnot hne a ha haid
    unfold toggleRepinch
    simp only [h1]
    rw [if_neg hnot]
    dsimp only
    rw [if_pos hne]
    refine ⟨(fun b => if b.id = p.author_id then
      { b with karma := b.karma + 2 } else b) a,
      List.mem_map_of_mem _ ha, ?_, ?_⟩
    · dsimp only
      rw [if_pos haid]
      exact haid
    · dsimp only
      rw [if_pos haid]

/-- A concrete state for the C3 witness. -/
def dbC3 : DB :=
  (createPinch (register (register initialDB "alice" "" "k1" "v1").2
    "bob" "" "k2" "v2").2 1 "hi" none none 0).2

theorem C3_repinch_karma_asymmetry_witness :
    ((2, 1) ∈ dbC3.repinches →
      (toggleRepinch dbC3 2 1).2.agents = dbC3.agents ∧
      ∃ p' ∈ (toggleRepinch dbC3 2 1).2.pinches, p'.id = 1 ∧
        p'.repinch_count = max
          (({ id := 1, author_id := 1, content := "hi", reply_to := none
              quote_of := none, claws_count := 0, repinch_count := 0
              reply_count := 0, created_at := 0 } : Pinch).repinch_count - 1)
          0) ∧
    ((2, 1) ∉ dbC3.repinches →
      ({ id := 1, author_id := 1, content := "hi", reply_to := none
         quote_of := none, claws_count := 0, repinch_count := 0
         reply_count := 0, created_at := 0 } : Pinch).author_id ≠ 2 →
      ∀ a ∈ dbC3.agents, a.id =
        ({ id := 1, author_id := 1, content := "hi", reply_to := none
           quote_of := none, claws_count := 0, repinch_count := 0
           reply_count := 0, created_at := 0 } : Pinch).author_id →
        ∃ a' ∈ (toggleRepinch dbC3 2 1).2.agents, a'.id =
          ({ id := 1, author_id := 1, content := "hi", reply_to := none
             quote_of := none, claws_count := 0, repinch_count := 0
             reply_count := 0, created_at := 0 } : Pinch).author_id ∧
          a'.karma = a.karma + 2) :=
  C3_repinch_karma_asymmetry dbC3 2 1
    { id := 1, author_id := 1, content := "hi", reply_to := none
      quote_of := none, claws_count := 0, repinch_count := 0
      reply_count := 0, created_at := 0 }
    (by decide) (by decide) (by decide)

/-- `processTag` establishes a hashtag row and a link row for its tag. -/
theorem processTag_link_established (db : DB) (pid : Nat) (t : String) :
    ∃ hh ∈ (processTag db pid t).hashtags, hh.tag = t ∧
      (pid, hh.id) ∈ (processTag db pid t).pinch_hashtags := by
  unfold processTag
  rcases hfind : db.hashtags.find? (fun x => x.tag == t) with _ | h0
  · simp only [hfind]
    split
    · refine ⟨_, List.mem_append_right _ (List.mem_singleton_self _),
        rfl, ?_⟩
      assumption
    · exact ⟨_, List.mem_append_right _ (List.mem_singleton_self _),
        rfl, List.mem_append_right _ (List.mem_singleton_self _)⟩
  · have htag : h0.tag = t := by simpa using List.find?_some hfind
    have hmem : h0 ∈ db.hashtags := List.mem_of_find?_eq_some hfind
    simp only [hfind]
    split
    · refine ⟨(fun h2 => if h2.tag = t then
        { h2 with pinch_count := h2.pinch_count + 1 } else h2) h0,
        List.mem_map_of_mem _ hmem, ?_, ?_⟩
      · dsimp only
        rw [if_pos htag]
        exact htag
      · dsimp only
        rw [if_pos htag]
        assumption
    · refine ⟨(fun h2 => if h2.tag = t then
        { h2 with pinch_count := h2.pinch_count + 1 } else h2) h0,
        List.mem_map_of_mem _ hmem, ?_, ?_⟩
      · dsimp only
        rw [if_pos htag]
        exact htag
      · dsimp only
        rw [if_pos htag]
        exact List.mem_append_right _ (List.mem_singleton_self _)

/-- `processTag` keeps every already-established hashtag/link pair. -/
theorem processTag_link_preserved (db : DB) (pid : Nat) (t t' : String)
    (h : ∃ hh ∈ db.hashtags, hh.tag = t' ∧
      (pid, hh.id) ∈ db.pinch_hashtags) :
    ∃ hh ∈ (processTag db pid t).hashtags, hh.tag = t' ∧
      (pid, hh.id) ∈ (processTag db pid t).pinch_hashtags := by
  obtain ⟨hh, hmem, htag, hlink⟩ := h
  unfold processTag
  rcases hfind : db.hashtags.find? (fun x => x.tag == t) with _ | h0
  · simp only [hfind]
    split
    · exact ⟨hh, List.mem_append_left _ hmem, htag, hlink⟩
    · exact ⟨hh, List.mem_append_left _ hmem, htag,
        List.mem_append_left _ hlink⟩
  · simp only [hfind]
    split
    · refine ⟨(fun h2 => if h2.tag = t then
        { h2 with pinch_count := h2.pinch_count + 1 } else h2) hh,
        List.mem_map_of_mem _ hmem, ?_, ?_⟩
      · dsimp only
        split <;> exact htag
      · dsimp only
        split <;> exact hlink
    · refine ⟨(fun h2 => if h2.tag = t then
        { h2 with pinch_count := h2.pinch_count + 1 } else h2) hh,
        List.mem_map_of_mem _ hmem, ?_, ?_⟩
      · dsimp only
        split <;> exact htag
      · dsimp only
        split <;> exact List.mem_append_left _ hlink

/-- The tag loop keeps established links. -/
theorem processTags_fold_preserved (ts : List String) (db : DB) (pid : Nat)
    (t' : String)
    (h : ∃ hh ∈ db.hashtags, hh.tag = t' ∧
      (pid, hh.id) ∈ db.pinch_hashtags) :
    ∃ hh ∈ (ts.foldl (fun d tag => processTag d pid tag) db).hashtags,
      hh.tag = t' ∧ (pid, hh.id) ∈
        (ts.foldl (fun d tag => processTag d pid tag) db).pinch_hashtags := by
  induction ts generalizing db with
  | nil => exact h
  | cons t0 ts ih =>
    rw [List.foldl_cons]
    exact ih _ (processTag_link_preserved db pid t0 t' h)

/-- After `processHashtags`, every extracted tag has a hashtag row and a
link row for the pinch. -/
theorem processHashtags_links (db : DB) (pid : Nat) (content : String) :
    ∀ t ∈ extractHashtags content,
      ∃ hh ∈ (processHashtags db pid content).hashtags, hh.tag = t ∧
        (pid, hh.id) ∈ (processHashtags db pid content).pinch_hashtags := by
  unfold processHashtags
  generalize extractHashtags content = tags
  induction tags generalizing db with
  | nil => intro t ht; cases ht
  | cons t0 ts ih =>
    intro t ht
    rw [List.foldl_cons]
    rcases List.mem_cons.mp ht with rfl | ht'
    · exact processTags_fold_preserved ts (processTag db pid t) pid t
        (processTag_link_established db pid t)
    · exact ih (processTag db pid t0) t ht'

/-- C4: createPinch is atomic in the sequential model — whenever it returns
an error (empty content, overlong content, rate limited, missing reply
parent, missing quoted pinch) the state is completely unchanged (no post
row, no counter change, no hashtag rows or links, no karma change, no
rate-limit event); whenever it succeeds, the post row, the parent
reply_count bump, the hashtag rows and links, the author karma bump and the
rate-limit event all exist together in the result state. -/
theorem C4_createPinch_atomic (db : DB) (aId : Nat) (content : String)
    (rt qt : Option Nat) (now : Int)
    (hfresh : ∀ p ∈ db.pinches, p.id < db.nextPinchId) :
    ((createPinch db aId content rt qt now).1.isOk = false →
      (createPinch db aId content rt qt now).2 = db) ∧
    (∀ newId, (createPinch db aId content rt qt now).1 =
        CreateResult.ok newId →
      newId = db.nextPinchId ∧
      (∃ p ∈ (createPinch db aId content rt qt now).2.pinches,
        p.id = newId ∧ p.content = jsTrim content ∧ p.author_id = aId ∧
        p.reply_to = rt ∧ p.quote_of = qt) ∧
      (∀ pr, rt = some pr → ∀ parent ∈ db.pinches, parent.id = pr →
        ∃ parent' ∈ (createPinch db aId content rt qt now).2.pinches,
          parent'.id = pr ∧
          parent'.reply_count = parent.reply_count + 1) ∧
      (∀ t ∈ extractHashtags (jsTrim content),
        ∃ hh ∈ (createPinch db aId content rt qt now).2.hashtags,
          hh.tag = t ∧ (newId, hh.id) ∈
            (createPinch db aId content rt qt now).2.pinch_hashtags) ∧
      (∀ a ∈ db.agents, a.id = aId →
        ∃ a' ∈ (createPinch db aId content rt qt now).2.agents,
          a'.id = aId ∧ a'.karma = a.karma + 1) ∧
      (createPinch db aId content rt qt now).2.rateEvents =
        (aId, "pinch", now) :: db.rateEvents) := by
  unfold createPinch
  dsimp only
  split
  · exact ⟨fun _ => rfl, fun newId hok => absurd hok (by simp)⟩
  · split
    · exact ⟨fun _ => rfl, fun newId hok => absurd hok (by simp)⟩
    · split
      · exact ⟨fun _ => rfl, fun newId hok => absurd hok (by simp)⟩
      · split
        · exact ⟨fun _ => rfl, fun newId hok => absurd hok (by simp)⟩
        · split
          · exact ⟨fun _ => rfl, fun newId hok => absurd hok (by simp)⟩
          · rename_i h1c h2c h3c hpar hqt2
            refine ⟨fun hbad => absurd hbad (by simp [CreateResult.isOk]),
              ?_⟩
            intro newId hok
            have hnid : db.nextPinchId = newId := by simpa using hok
            subst hnid
            rcases rt with _ | pr0
            · dsimp only
              have hfX := processHashtags_fields
                { db with
                  pinches :=
                    { id := db.nextPinchId, author_id := aId,
                        content := jsTrim content, reply_to := none,
                        quote_of := qt, claws_count := 0, repinch_count := 0,
                        reply_count := 0, created_at := now } ::
                      db.pinches,
                  nextPinchId := db.nextPinchId + 1 }
                db.nextPinchId (jsTrim content)
              refine ⟨rfl, ?_, ?_, ?_, ?_, ?_⟩
              · refine ⟨
                  { id := db.nextPinchId, author_id := aId,
                      content := jsTrim content, reply_to := none,
                      quote_of := qt, claws_count := 0, repinch_count := 0,
                      reply_count := 0, created_at := now },
                  ?_, rfl, rfl, rfl, rfl, rfl⟩
                dsimp only [recordRateLimit, updateAgentRow]
                rw [hfX.2.1]
                exact List.mem_cons_self _ _
              · intro pr hpr
                exact absurd hpr (by simp)
              · intro t ht
                exact processHashtags_links _ db.nextPinchId
                  (jsTrim content) t ht
              · intro a ha haid
                have ha3 : a ∈ (processHashtags
                    { db with
                      pinches :=
                        { id := db.nextPinchId, author_id := aId,
                            content := jsTrim content, reply_to := none,
                            quote_of := qt, claws_count := 0, repinch_count := 0,
                            reply_count := 0, created_at := now } ::
                          db.pinches,
                      nextPinchId := db.nextPinchId + 1 }
                    db.nextPinchId (jsTrim content)).agents := by
                  rw [hfX.1]
                  exact ha
                refine ⟨_, List.mem_map_of_mem _ ha3, ?_, ?_⟩
                · dsimp only
                  rw [if_pos haid]
                  exact haid
                · dsimp only
                  rw [if_pos haid]
              · exact congrArg (List.cons _) hfX.2.2.2.2.2
            · dsimp only
              have hparent : ∃ parent ∈ db.pinches, parent.id = pr0 := by
                rcases hfind : db.pinches.find? (fun p => p.id == pr0)
                  with _ | parent
                · exact absurd (by simp [hfind]) hpar
                · exact ⟨parent, List.mem_of_find?_eq_some hfind,
                    by simpa using List.find?_some hfind⟩
              have hprlt : pr0 < db.nextPinchId := by
                obtain ⟨parent, hpmem, hpe⟩ := hparent
                have := hfresh parent hpmem
                omega
              have hfX := processHashtags_fields
                (updatePinchRow
                  { db with
                    pinches :=
                      { id := db.nextPinchId, author_id := aId,
                          content := jsTrim content, reply_to := some pr0,
                          quote_of := qt, claws_count := 0, repinch_count := 0,
                          reply_count := 0, created_at := now } ::
                        db.pinches,
                    nextPinchId := db.nextPinchId + 1 }
                  pr0
                  (fun p => { p with reply_count := p.reply_count + 1 }))
                db.nextPinchId (jsTrim content)
              refine ⟨rfl, ?_, ?_, ?_, ?_, ?_⟩
              · refine ⟨
                  { id := db.nextPinchId, author_id := aId,
                      content := jsTrim content, reply_to := some pr0,
                      quote_of := qt, claws_count := 0, repinch_count := 0,
                      reply_count := 0, created_at := now },
                  ?_, rfl, rfl, rfl, rfl, rfl⟩
                dsimp only [recordRateLimit, updateAgentRow]
                rw [hfX.2.1]
                dsimp only [updatePinchRow]
                rw [List.map_cons, if_neg (by dsimp only; omega)]
                exact List.mem_cons_self _ _
              · intro pr hpr parent hparent2 hpid2
                have hpr0 : pr = pr0 := by
                  simpa using hpr.symm
                subst hpr0
                dsimp only [recordRateLimit, updateAgentRow]
                rw [hfX.2.1]
                dsimp only [updatePinchRow]
                refine ⟨_, List.mem_map_of_mem _
                  (List.mem_cons_of_mem _ hparent2), ?_, ?_⟩
                · dsimp only
                  rw [if_pos hpid2]
                  exact hpid2
                · dsimp only
                  rw [if_pos hpid2]
              · intro t ht
                exact processHashtags_links _ db.nextPinchId
                  (jsTrim content) t ht
              · intro a ha haid
                have ha3 : a ∈ (processHashtags
                    (updatePinchRow
                      { db with
                        pinches :=
                          { id := db.nextPinchId, author_id := aId,
                              content := jsTrim content, reply_to := some pr0,
                              quote_of := qt, claws_count := 0, repinch_count := 0,
                              reply_count := 0, created_at := now } ::
                            db.pinches,
                        nextPinchId := db.nextPinchId + 1 }
                      pr0
                      (fun p => { p with reply_count := p.reply_count + 1 }))
                    db.nextPinchId (jsTrim content)).agents := by
                  rw [hfX.1]
                  exact ha
                refine ⟨_, List.mem_map_of_mem _ ha3, ?_, ?_⟩
                · dsimp only
                  rw [if_pos haid]
                  exact haid
                · dsimp only
                  rw [if_pos haid]
              · exact congrArg (List.cons _) hfX.2.2.2.2.2

/-- A concrete state for the C4 witness: two agents and one existing pinch
to reply to. -/
def dbC4 : DB :=
  (createPinch (register (register initialDB "alice" "" "k1" "v1").2
    "bob" "" "k2" "v2").2 1 "hi" none none 0).2

theorem C4_createPinch_atomic_witness :
    ((createPinch dbC4 2 "a reply #Tag" (some 1) none 100).1.isOk = false →
      (createPinch dbC4 2 "a reply #Tag" (some 1) none 100).2 = dbC4) ∧
    (∀ newId, (createPinch dbC4 2 "a reply #Tag" (some 1) none 100).1 =
        CreateResult.ok newId →
      newId = dbC4.nextPinchId ∧
      (∃ p ∈ (createPinch dbC4 2 "a reply #Tag" (some 1) none 100).2.pinches,
        p.id = newId ∧ p.content = jsTrim "a reply #Tag" ∧ p.author_id = 2 ∧
        p.reply_to = some 1 ∧ p.quote_of = none) ∧
      (∀ pr, (some 1 : Option Nat) = some pr →
        ∀ parent ∈ dbC4.pinches, parent.id = pr →
        ∃ parent' ∈
          (createPinch dbC4 2 "a reply #Tag" (some 1) none 100).2.pinches,
          parent'.id = pr ∧
          parent'.reply_count = parent.reply_count + 1) ∧
      (∀ t ∈ extractHashtags (jsTrim "a reply #Tag"),
        ∃ hh ∈ (createPinch dbC4 2 "a reply #Tag" (some 1) none
            100).2.hashtags,
          hh.tag = t ∧ (newId, hh.id) ∈
            (createPinch dbC4 2 "a reply #Tag" (some 1) none
              100).2.pinch_hashtags) ∧
      (∀ a ∈ dbC4.agents, a.id = 2 →
        ∃ a' ∈ (createPinch dbC4 2 "a reply #Tag" (some 1) none
            100).2.agents,
          a'.id = 2 ∧ a'.karma = a.karma + 1) ∧
      (createPinch dbC4 2 "a reply #Tag" (some 1) none 100).2.rateEvents =
        (2, "pinch", 100) :: dbC4.rateEvents) :=
  C4_createPinch_atomic dbC4 2 "a reply #Tag" (some 1) none 100 (by decide)

/-- In a list with pairwise distinct keys, the key of a member is hit
exactly once. -/
theorem countP_key_unique {α β : Type} [DecidableEq β] (key : α → β)
    {l : List α} (hN : (l.map key).Nodup) {x : α} (hx : x ∈ l) {k : β}
    (hk : key x = k) : l.countP (fun y => key y == k) = 1 := by
  induction l with
  | nil => cases hx
  | cons a tl ih =>
    rw [List.countP_cons]
    rcases List.mem_cons.mp hx with rfl | hx'
    · have h0 : tl.countP (fun y => key y == k) = 0 := by
        rw [List.countP_eq_zero]
        intro b hb
        simp only [beq_iff_eq]
        intro hbk
        have : key b ∈ tl.map key := List.mem_map_of_mem key hb
        rw [hbk, ← hk] at this
        exact (List.nodup_cons.mp hN).1 this
      rw [h0, if_pos (by simp [hk])]
    · have hka : key a ≠ k := by
        intro hcontra
        have : key x ∈ tl.map key := List.mem_map_of_mem key hx'
        rw [hk, ← hcontra] at this
        exact (List.nodup_cons.mp hN).1 this
      rw [ih (List.nodup_cons.mp hN).2 hx', if_neg (by simp [hka])]

/-- C6: hashtag extraction lowercases and deduplicates within a single
post — when the extracted tag list of the content is the single tag `t`
(as for "hello #AI #ai #AI", whose extraction is exactly ["ai"]), posting
it leaves exactly one hashtag row with that tag, its usage count
incremented by exactly 1 over its previous value (1 if new), and exactly
one new link row for the post. -/
theorem C6_hashtag_dedup (db : DB) (pid : Nat) (content t : String)
    (hext : extractHashtags content = [t])
    (hNt : (db.hashtags.map Hashtag.tag).Nodup)
    (hNoLinks : ∀ ph ∈ db.pinch_hashtags, ph.1 ≠ pid) :
    extractHashtags "hello #AI #ai #AI" = ["ai"] ∧
    (processHashtags db pid content).hashtags.countP
      (fun h => h.tag == t) = 1 ∧
    ∃ h' ∈ (processHashtags db pid content).hashtags, h'.tag = t ∧
      h'.pinch_count = (match db.hashtags.find? (fun x => x.tag == t) with
        | some h0 => h0.pinch_count + 1
        | none => 1) ∧
      (processHashtags db pid content).pinch_hashtags =
        db.pinch_hashtags ++ [(pid, h'.id)] := by
  refine ⟨by decide, ?_⟩
  unfold processHashtags
  rw [hext, List.foldl_cons, List.foldl_nil]
  unfold processTag
  rcases hfind : db.hashtags.find? (fun x => x.tag == t) with _ | h0
  · simp only [hfind]
    have hnotin : (pid, db.nextHashtagId) ∉ db.pinch_hashtags :=
      fun hmem => hNoLinks _ hmem rfl
    rw [if_neg hnotin]
    constructor
    · rw [List.countP_append]
      have h0 : db.hashtags.countP (fun h => h.tag == t) = 0 := by
        rw [List.countP_eq_zero]
        intro b hb
        exact List.find?_eq_none.mp hfind b hb
      rw [h0]
      simp
    · exact ⟨_, List.mem_append_right _ (List.mem_singleton_self _),
        rfl, rfl, rfl⟩
  · have htag : h0.tag = t := by simpa using List.find?_some hfind
    have hmem : h0 ∈ db.hashtags := List.mem_of_find?_eq_some hfind
    simp only [hfind]
    have hnotin : (pid, h0.id) ∉ db.pinch_hashtags :=
      fun hmem2 => hNoLinks _ hmem2 rfl
    rw [if_neg hnotin]
    constructor
    · rw [List.countP_map]
      have : ∀ h ∈ db.hashtags,
          ((fun h : Hashtag => h.tag == t) ∘ (fun h2 => if h2.tag = t then
            { h2 with pinch_count := h2.pinch_count + 1 } else h2)) h =
            true ↔ (h.tag == t) = true := by
        intro h _
        dsimp only [Function.comp]
        split <;> rfl
      rw [List.countP_congr this]
      exact countP_key_unique Hashtag.tag hNt hmem htag
    · refine ⟨(fun h2 => if h2.tag = t then
        { h2 with pinch_count := h2.pinch_count + 1 } else h2) h0,
        List.mem_map_of_mem _ hmem, ?_, ?_, ?_⟩
      · dsimp only
        rw [if_pos htag]
        exact htag
      · dsimp only
        rw [if_pos htag]
      · dsimp only
        rw [if_pos htag]

/-- A concrete state for the C6 witness: one agent whose first pinch is
about to carry the duplicated tag. -/
def dbC6 : DB :=
  (createPinch (register initialDB "alice" "" "k1" "v1").2
    1 "warmup" none none 0).2

theorem C6_hashtag_dedup_witness :
    extractHashtags "hello #AI #ai #AI" = ["ai"] ∧
    (processHashtags dbC6 2 "hello #AI #ai #AI").hashtags.countP
      (fun h => h.tag == "ai") = 1 ∧
    ∃ h' ∈ (processHashtags dbC6 2 "hello #AI #ai #AI").hashtags,
      h'.tag = "ai" ∧
      h'.pinch_count =
        (match dbC6.hashtags.find? (fun x => x.tag == "ai") with
          | some h0 => h0.pinch_count + 1
          | none => 1) ∧
      (processHashtags dbC6 2 "hello #AI #ai #AI").pinch_hashtags =
        dbC6.pinch_hashtags ++ [(2, h'.id)] :=
  C6_hashtag_dedup dbC6 2 "hello #AI #ai #AI" "ai" (by decide) (by decide)
    (by decide)

/-- Characterization of the trending join condition when pinch ids are
unique. -/
theorem pinchInWindow_iff (db : DB) (now : Int) (n : Nat)
    (hN : (db.pinches.map Pinch.id).Nodup) :
    pinchInWindow db now n = true ↔
      ∃ p ∈ db.pinches, p.id = n ∧ now - 86400 < p.created_at := by
  unfold pinchInWindow
  rcases hfind : db.pinches.find? (fun p => p.id == n) with _ | p
  · simp only [hfind, Option.any_none]
    constructor
    · intro h
      cases h
    · rintro ⟨p, hp, hpe, -⟩
      have := List.find?_eq_none.mp hfind p hp
      simp [hpe] at this
  · have hpe : p.id = n := by simpa using List.find?_some hfind
    have hpm := List.mem_of_find?_eq_some hfind
    simp only [hfind, Option.any_some]
    constructor
    · intro h
      exact ⟨p, hpm, hpe, by simpa using h⟩
    · rintro ⟨q, hq, hqe, hqw⟩
      have hq2 : db.pinches.find? (fun x => x.id == n) = some q :=
        find?_key_eq Pinch.id hN hq hqe
      rw [hfind] at hq2
      obtain rfl := Option.some.inj hq2
      simpa using hqw

theorem trendingOrder_trans : ∀ a b c, trendingOrder a b = true →
    trendingOrder b c = true → trendingOrder a c = true := by
  intro a b c hab hbc
  simp only [trendingOrder, decide_eq_true_eq] at hab hbc ⊢
  omega

theorem trendingOrder_total : ∀ a b,
    (trendingOrder a b || trendingOrder b a) = true := by
  intro a b
  simp only [trendingOrder, Bool.or_eq_true, decide_eq_true_eq]
  omega

/-- C7: the trending-hashtags query ranks each listed hashtag by the number
of distinct posts created inside the trailing 24-hour window that reference
it (given unique pinch ids and unique link rows, the SQL COUNT over the
join equals that number), the output is sorted by recent count descending
with all-time usage count as tie-break, and posts created outside the
window contribute nothing: restricting the posts table to the window leaves
the query result unchanged. -/
theorem C7_trending_window (db : DB) (now : Int) (limit : Nat)
    (hN : (db.pinches.map Pinch.id).Nodup)
    (hL : db.pinch_hashtags.Nodup) :
    (∀ h ∈ db.hashtags, recentCount db now h.id =
      db.pinches.countP (fun p => decide (now - 86400 < p.created_at) &&
        decide ((p.id, h.id) ∈ db.pinch_hashtags))) ∧
    List.Pairwise (fun a b => trendingOrder a b = true)
      (trending db now limit) ∧
    trending { db with pinches := db.pinches.filter (fun p => now - 86400 < p.created_at) } now limit =
      trending db now limit := by
  refine ⟨?_, ?_, ?_⟩
  · intro h _
    unfold recentCount
    rw [List.countP_eq_length_filter, List.countP_eq_length_filter]
    have hA : ((db.pinch_hashtags.filter (fun ph => ph.2 == h.id &&
        pinchInWindow db now ph.1)).map Prod.fst).Nodup := by
      apply List.Nodup.map_on
      · intro x hx y hy hxy
        have hx2 : x.2 = h.id := by
          have := List.of_mem_filter hx
          simp only [Bool.and_eq_true, beq_iff_eq] at this
          exact this.1
        have hy2 : y.2 = h.id := by
          have := List.of_mem_filter hy
          simp only [Bool.and_eq_true, beq_iff_eq] at this
          exact this.1
        exact Prod.ext hxy (hx2.trans hy2.symm)
      · exact hL.filter _
    have hB : ((db.pinches.filter (fun p =>
        decide (now - 86400 < p.created_at) &&
        decide ((p.id, h.id) ∈ db.pinch_hashtags))).map Pinch.id).Nodup :=
      List.Nodup.sublist ((List.filter_sublist _).map Pinch.id) hN
    rw [← List.length_map _ Prod.fst, ← List.length_map _ Pinch.id,
      ← List.toFinset_card_of_nodup hA, ← List.toFinset_card_of_nodup hB]
    congr 1
    ext n
    simp only [List.mem_toFinset, List.mem_map, List.mem_filter,
      Bool.and_eq_true, beq_iff_eq, decide_eq_true_eq]
    constructor
    · rintro ⟨ph, ⟨hphmem, hph2, hphw⟩, rfl⟩
      obtain ⟨p, hp, hpe, hpw⟩ := (pinchInWindow_iff db now ph.1 hN).mp hphw
      refine ⟨p, ⟨hp, hpw, ?_⟩, hpe⟩
      rw [hpe, ← hph2, Prod.mk.eta]
      exact hphmem
    · rintro ⟨p, ⟨hp, hpw, hplink⟩, rfl⟩
      refine ⟨(p.id, h.id), ⟨hplink, rfl, ?_⟩, rfl⟩
      exact (pinchInWindow_iff db now p.id hN).mpr ⟨p, hp, rfl, hpw⟩
  · unfold trending
    exact List.Pairwise.sublist (List.take_sublist _ _)
      (List.sorted_mergeSort trendingOrder_trans trendingOrder_total _)
  · have hsub : ((db.pinches.filter (fun p =>
        now - 86400 < p.created_at)).map Pinch.id).Nodup :=
      List.Nodup.sublist ((List.filter_sublist _).map Pinch.id) hN
    have hwin : ∀ n, pinchInWindow { db with pinches := db.pinches.filter (fun p => now - 86400 < p.created_at) } now n =
        pinchInWindow db now n := by
      intro n
      have h1 := pinchInWindow_iff { db with pinches := db.pinches.filter (fun p => now - 86400 < p.created_at) } now n hsub
      have h2 := pinchInWindow_iff db now n hN
      rcases hb1 : pinchInWindow { db with pinches := db.pinches.filter (fun p => now - 86400 < p.created_at) } now n <;>
        rcases hb2 : pinchInWindow db now n
      · rfl
      · exfalso
        rw [hb1] at h1
        rw [hb2] at h2
        obtain ⟨p, hp, hpe, hpw⟩ := h2.mp rfl
        have hcontra : (false : Bool) = true := h1.mpr
          ⟨p, List.mem_filter.mpr ⟨hp, by simpa using hpw⟩, hpe, hpw⟩
        cases hcontra
      · exfalso
        rw [hb1] at h1
        rw [hb2] at h2
        obtain ⟨p, hp, hpe, hpw⟩ := h1.mp rfl
        have hcontra : (false : Bool) = true := h2.mpr
          ⟨p, List.mem_of_mem_filter hp, hpe, hpw⟩
        cases hcontra
      · rfl
    have hrc : ∀ hid, recentCount { db with pinches := db.pinches.filter (fun p => now - 86400 < p.created_at) } now hid =
        recentCount db now hid := by
      intro hid
      unfold recentCount
      apply List.countP_congr
      intro ph _
      rw [hwin ph.1]
    unfold trending
    have hfun : (fun h : Hashtag =>
        let rc := recentCount { db with pinches := db.pinches.filter (fun p => now - 86400 < p.created_at) } now h.id
        if rc = 0 then none else some (h.tag, rc, h.pinch_count)) =
        (fun h : Hashtag =>
          let rc := recentCount db now h.id
          if rc = 0 then none else some (h.tag, rc, h.pinch_count)) := by
      funext h
      simp only [hrc]
    rw [hfun]

/-- A concrete state for the C7 witness: one agent and one tagged pinch. -/
def dbC7 : DB :=
  (createPinch (register initialDB "alice" "" "k1" "v1").2
    1 "hello #ai" none none 0).2

theorem C7_trending_window_witness :
    (∀ h ∈ dbC7.hashtags, recentCount dbC7 1000 h.id =
      dbC7.pinches.countP (fun p => decide ((1000 : Int) - 86400 < p.created_at) &&
        decide ((p.id, h.id) ∈ dbC7.pinch_hashtags))) ∧
    List.Pairwise (fun a b => trendingOrder a b = true)
      (trending dbC7 1000 10) ∧
    trending { dbC7 with pinches := dbC7.pinches.filter (fun p => (1000 : Int) - 86400 < p.created_at) } 1000 10 =
      trending dbC7 1000 10 :=
  C7_trending_window dbC7 1000 10 (by decide) (by decide)

/-- A concrete state for C8: the agent has just posted (one recorded pinch
event), so the 1-per-5-minutes posting limit is exhausted at time 100. -/
def dbC8 : DB :=
  (createPinch (register initialDB "alice" "" "k1" "v1").2
    1 "first" none none 0).2

/-- C8 counterexample: with the posting limit exhausted and `reply_to`
referencing the nonexistent pinch 999, the call returns RateLimited, not
ParentNotFound — the rate limiter is consulted before the existence
checks, contrary to the claim. -/
theorem C8_counterexample :
    (dbC8.pinches.find? (fun p => p.id == 999)).isNone = true ∧
    checkRateLimit dbC8 1 "pinch" 100 = false ∧
    (createPinch dbC8 1 "hi" (some 999) none 100).1 =
      CreateResult.rateLimited ∧
    (createPinch dbC8 1 "hi" (some 999) none 100).1 ≠
      CreateResult.parentNotFound := by decide

/-- C8 (amended): in createPinch the rate limiter is consulted before the
replyTo/quoteOf existence checks — whenever the content is valid and the
posting limit is exhausted, the result is RateLimited with the state
unchanged, even if replyTo references a nonexistent post. -/
theorem C8_rate_limit_before_parent_check (db : DB) (aId : Nat)
    (content : String) (rt qt : Option Nat) (now : Int)
    (hc1 : (jsTrim content).length ≠ 0)
    (hc2 : (jsTrim content).length ≤ 280)
    (hrl : checkRateLimit db aId "pinch" now = false) :
    (createPinch db aId content rt qt now).1 = CreateResult.rateLimited ∧
    (createPinch db aId content rt qt now).2 = db := by
  unfold createPinch
  dsimp only
  rw [if_neg hc1, if_neg (by omega), if_pos (by simp [hrl])]
  exact ⟨rfl, rfl⟩

theorem C8_rate_limit_before_parent_check_witness :
    (createPinch dbC8 1 "hi" (some 999) none 100).1 =
      CreateResult.rateLimited ∧
    (createPinch dbC8 1 "hi" (some 999) none 100).2 = dbC8 :=
  C8_rate_limit_before_parent_check dbC8 1 "hi" (some 999) none 100
    (by decide) (by decide) (by decide)

/-- A freshly registered (hence unverified, claimed = false) agent. -/
def dbC9 : DB := (register initialDB "alice" "" "k1" "v1").2

/-- C9 counterexample: an agent whose verification state is still
unverified (claimed = false) authenticates with its API key and
successfully creates a post — the claim that unverified agents cannot
perform mutating actions is false on the code. -/
theorem C9_counterexample :
    (∃ a, authenticate dbC9 "k1" = some a ∧ a.claimed = false) ∧
    (createPinch dbC9 1 "hello" none none 0).1 = CreateResult.ok 1 ∧
    (∃ p ∈ (createPinch dbC9 1 "hello" none none 0).2.pinches,
      p.author_id = 1) ∧
    (followAgent (register dbC9 "bob" "" "k2" "v2").2 1 "bob" 0).1 =
      FollowResult.ok := by decide

/-- C9 (amended): mutating actions are gated by the per-agent API key
alone — `requireAuth` never consults the verification state, so an agent
with claimed = false and a valid API key authenticates and can create a
post. -/
theorem C9_api_key_only_gating (db : DB) (a : Agent)
    (ha : a ∈ db.agents) (hk : (db.agents.map Agent.api_key).Nodup)
    (hunv : a.claimed = false) (content : String) (now : Int)
    (hc1 : (jsTrim content).length ≠ 0)
    (hc2 : (jsTrim content).length ≤ 280)
    (hrl : checkRateLimit db a.id "pinch" now = true) :
    authenticate db a.api_key = some a ∧
    (createPinch db a.id content none none now).1 =
      CreateResult.ok db.nextPinchId := by
  refine ⟨find?_key_eq Agent.api_key hk ha rfl, ?_⟩
  unfold createPinch
  dsimp only
  rw [if_neg hc1, if_neg (by omega), if_neg (by simp [hrl]),
    if_neg (by simp), if_neg (by simp)]

theorem C9_api_key_only_gating_witness :
    authenticate dbC9
      ({ id := 1, name := "alice", description := "", api_key := "k1",
         verification_code := "v1", claimed := false,
         karma := 0 } : Agent).api_key =
      some { id := 1, name := "alice", description := "", api_key := "k1",
             verification_code := "v1", claimed := false, karma := 0 } ∧
    (createPinch dbC9
      ({ id := 1, name := "alice", description := "", api_key := "k1",
         verification_code := "v1", claimed := false,
         karma := 0 } : Agent).id "hello" none none 0).1 =
      CreateResult.ok dbC9.nextPinchId :=
  C9_api_key_only_gating dbC9
    { id := 1, name := "alice", description := "", api_key := "k1",
      verification_code := "v1", claimed := false, karma := 0 }
    (by decide) (by decide) (by decide) "hello" 0 (by decide) (by decide)
    (by decide)

/-- C10: follow is idempotent rather than a toggle — when the acting agent
already follows the target (and the follow limit is not exhausted), a
second POST /agents/:name/follow succeeds, leaves the follows table
unchanged, and still records one follow rate-limit event. -/
theorem C10_follow_idempotent (db : DB) (aId : Nat) (target : Agent)
    (targetName : String) (now : Int)
    (htm : target ∈ db.agents)
    (hnames : (db.agents.map Agent.name).Nodup)
    (hname : target.name = targetName)
    (hne : target.id ≠ aId)
    (hfollowing : (aId, target.id) ∈ db.follows)
    (hallowed : checkRateLimit db aId "follow" now = true) :
    (followAgent db aId targetName now).1 = FollowResult.ok ∧
    (followAgent db aId targetName now).2.follows = db.follows ∧
    (followAgent db aId targetName now).2.rateEvents =
      (aId, "follow", now) :: db.rateEvents := by
  have hfindT : db.agents.find? (fun x => x.name == targetName) =
      some target := find?_key_eq Agent.name hnames htm hname
  unfold followAgent
  rw [if_neg (by simp [hallowed])]
  simp only [hfindT]
  rw [if_neg hne, if_pos hfollowing]
  exact ⟨rfl, rfl, rfl⟩

/-- A concrete state for the C10 witness: alice already follows bob and has
one recorded follow event. -/
def dbC10 : DB :=
  (followAgent (register (register initialDB "alice" "" "k1" "v1").2
    "bob" "" "k2" "v2").2 1 "bob" 0).2

theorem C10_follow_idempotent_witness :
    (followAgent dbC10 1 "bob" 10).1 = FollowResult.ok ∧
    (followAgent dbC10 1 "bob" 10).2.follows = dbC10.follows ∧
    (followAgent dbC10 1 "bob" 10).2.rateEvents =
      (1, "follow", 10) :: dbC10.rateEvents :=
  C10_follow_idempotent dbC10 1
    { id := 2, name := "bob", description := "", api_key := "k2",
      verification_code := "v2", claimed := false, karma := 0 }
    "bob" 10 (by decide) (by decide) (by decide) (by decide) (by decide)
    (by decide)
